import Mathlib

/-!
Formal model of the adjacency-list `Graph` class in `graph.py`.

Modelling conventions:
* Vertices are Python objects chosen by the caller; the repository's examples use
  strings.  We model them as `Nat` (an opaque, hashable, totally ordered label type;
  vertex objects are assumed truthy, as every vertex used in the repository is).
* A Python `dict` is an insertion-ordered association list (`PyDict`): updating an
  existing key keeps its position, a new key is appended at the end.
* `self.graph` is a `collections.defaultdict(list)`: reading a missing key
  auto-creates an empty entry at the end of the key order (`vivify`).  Reads of the
  value are `adjGet` (the auto-created entry is empty, so the value read is the same).
* The Python `set` `self.vertices` is modelled as an insertion-ordered list without
  duplicates (`setAdd`).  CPython's set iteration order is unspecified, so the
  functions that iterate over `self.vertices` (`has_cycle`, `topological_sort`)
  take the iteration order as an explicit list parameter.
* Unbounded Python recursion/`while` loops are modelled with an explicit fuel
  parameter that is provably sufficient.
-/

/-- Python dict from vertex to value, as an insertion-ordered association list. -/
abbrev PyDict (β : Type) : Type := List (Nat × β)

/-- Dictionary lookup (first, i.e. unique, occurrence of the key). -/
def mapLookup {β : Type} : PyDict β → Nat → Option β
  | [], _ => none
  | (k, x) :: rest, v => if k = v then some x else mapLookup rest v

/-- Dictionary assignment `d[v] = x`: existing keys keep their position, a new key
is appended at the end. -/
def mapSet {β : Type} : PyDict β → Nat → β → PyDict β
  | [], v, x => [(v, x)]
  | (k, y) :: rest, v, x => if k = v then (k, x) :: rest else (k, y) :: mapSet rest v x

/-- The adjacency map `self.graph`: vertex to ordered list of (neighbor, weight). -/
abbrev Adj : Type := PyDict (List (Nat × Int))

/-- Value of `self.graph[v]` (a missing key reads as the empty list). -/
def adjGet (adj : Adj) (v : Nat) : List (Nat × Int) := (mapLookup adj v).getD []

/-- Test `v in self.graph`. -/
def adjHasKey (adj : Adj) (v : Nat) : Bool := (mapLookup adj v).isSome

/-- Mutation performed by reading `self.graph[v]` on a `defaultdict`: a missing key
is created with an empty list, at the end of the key order. -/
def vivify (adj : Adj) (v : Nat) : Adj := if adjHasKey adj v then adj else adj ++ [(v, [])]

/-- Auto-vivification of every vertex in `vs`, in order (the accumulated
`defaultdict` effect of a traversal that reads `self.graph[v]` for each `v ∈ vs`). -/
def vivifyAll (adj : Adj) (vs : List Nat) : Adj := vs.foldl vivify adj

/-- State of a `Graph` object: mode flag, `self.graph`, `self.vertices`. -/
structure Graph where
  directed : Bool
  adj : Adj
  vertices : List Nat
deriving DecidableEq

/-- `Graph.__init__`. -/
def graphInit (directed : Bool) : Graph := ⟨directed, [], []⟩

/-- Python `set.add` on the insertion-ordered model of a set. -/
def setAdd (s : List Nat) (v : Nat) : List Nat := if v ∈ s then s else s ++ [v]

/-- `Graph.add_vertex`. -/
def add_vertex (g : Graph) (v : Nat) : Graph :=
  { g with vertices := setAdd g.vertices v,
           adj := if adjHasKey g.adj v then g.adj else g.adj ++ [(v, [])] }

/-- `self.graph[u].append(e)` (vivifies `u` if missing, then appends in place). -/
def adjAppend (adj : Adj) (u : Nat) (e : Nat × Int) : Adj := mapSet adj u (adjGet adj u ++ [e])

/-- `Graph.add_edge` (default weight 1 at call sites). -/
def add_edge (g : Graph) (u v : Nat) (w : Int) : Graph :=
  let adj1 := adjAppend g.adj u (v, w)
  { g with vertices := setAdd (setAdd g.vertices u) v,
           adj := if g.directed then adj1 else adjAppend adj1 v (u, w) }

/-- `Graph.remove_edge`: list comprehension dropping every entry targeting `v`
from `u`'s list (and symmetrically when undirected); reading `self.graph[u]` on the
right-hand side vivifies, the assignment then stores the filtered list. -/
def remove_edge (g : Graph) (u v : Nat) : Graph :=
  let adj1 := mapSet g.adj u ((adjGet g.adj u).filter (fun e => decide (e.1 ≠ v)))
  { g with adj := if g.directed then adj1
                  else mapSet adj1 v ((adjGet adj1 v).filter (fun e => decide (e.1 ≠ u))) }

/-- `Graph.remove_vertex`: drop from `vertices`, strip entries targeting `v` from
every adjacency list, delete `v`'s own entry. -/
def remove_vertex (g : Graph) (v : Nat) : Graph :=
  { g with
    vertices := g.vertices.filter (fun x => decide (x ≠ v)),
    adj := (g.adj.map (fun p => (p.1, p.2.filter (fun e => decide (e.1 ≠ v))))).filter
             (fun p => decide (p.1 ≠ v)) }

/-- Value returned by `Graph.get_neighbors` (the `defaultdict` side effect is
modelled separately in `execOp`). -/
def get_neighbors (g : Graph) (v : Nat) : List (Nat × Int) := adjGet g.adj v

/-- Value returned by `Graph.has_edge`. -/
def has_edge (g : Graph) (u v : Nat) : Bool := (adjGet g.adj u).any (fun e => decide (e.1 = v))

/-- All vertices textually present in the adjacency map (keys and neighbors);
a bound on what a traversal can ever enqueue. -/
def mentioned (g : Graph) : List Nat :=
  g.adj.map Prod.fst ++ g.adj.flatMap (fun p => p.2.map Prod.fst)

/-- Inner loop of `Graph.bfs`: the sublist of `ns` not yet visited, each new
vertex being added to `visited` as it is enqueued. -/
def newNeighbors (visited : List Nat) : List Nat → List Nat
  | [] => []
  | n :: ns => if n ∈ visited then newNeighbors visited ns
               else n :: newNeighbors (visited ++ [n]) ns

/-- `Graph.bfs` while-loop; returns the pop (visit) order. -/
def bfsAux (g : Graph) : Nat → List Nat → List Nat → List Nat
  | 0, _, _ => []
  | fuel + 1, visited, queue =>
    match queue with
    | [] => []
    | v :: qs =>
      let new := newNeighbors visited ((adjGet g.adj v).map Prod.fst)
      v :: bfsAux g fuel (visited ++ new) (qs ++ new)

/-- Fuel sufficient for `bfsAux` (one unit per loop iteration). -/
def bfsFuel (g : Graph) : Nat := (mentioned g).length + 1

/-- `Graph.bfs(start)`: the returned visit sequence. -/
def bfsList (g : Graph) (start : Nat) : List Nat := bfsAux g (bfsFuel g) [start] [start]

/-- The neighbor for-loop shared by `dfs_recursive` and the topological-sort
`dfs`: `for neighbor in graph[vertex]: if neighbor not in visited: recurse`.
`rec` is the recursive call (taken at the remaining recursion budget, so that
the whole recursion is structural on the fuel). -/
def visitFold (rec : List Nat × List Nat → Nat → List Nat × List Nat) :
    List Nat × List Nat → List Nat → List Nat × List Nat
  | st, [] => st
  | st, n :: ns => visitFold rec (if n ∈ st.1 then st else rec st n) ns

/-- `dfs_recursive(vertex)` inside `Graph.dfs`: state is (visited, result);
the vertex is recorded in both, then its neighbors are explored in order. -/
def dfsVisit (g : Graph) : Nat → List Nat × List Nat → Nat → List Nat × List Nat
  | 0, st, _ => st
  | fuel + 1, st, v =>
      visitFold (dfsVisit g fuel) (st.1 ++ [v], st.2 ++ [v]) ((adjGet g.adj v).map Prod.fst)

/-- Fuel sufficient for `dfsVisit` (recursion depth is bounded by the number of
distinct vertices ever visited). -/
def dfsFuel (g : Graph) : Nat := (mentioned g).length + 2

/-- `Graph.dfs(start)`: the returned visit sequence. -/
def dfsList (g : Graph) (start : Nat) : List Nat := (dfsVisit g (dfsFuel g) ([], []) start).2

/-- Neighbor for-loop of `Graph.shortest_path_bfs`: either an early return with
the found path (`Sum.inl`) or the updated (visited, newly queued items). -/
def spInner (endv : Nat) (path : List Nat) :
    List Nat → List (Nat × List Nat) → List Nat → Sum (List Nat) (List Nat × List (Nat × List Nat))
  | visited, acc, [] => Sum.inr (visited, acc)
  | visited, acc, n :: ns =>
    if n = endv then Sum.inl (path ++ [n])
    else if n ∈ visited then spInner endv path visited acc ns
    else spInner endv path (visited ++ [n]) (acc ++ [(n, path ++ [n])]) ns

/-- While-loop of `Graph.shortest_path_bfs`.  Also returns the list of vertices
popped from the queue (whose adjacency lists were read), for the `defaultdict`
side effect. -/
def spAux (g : Graph) (endv : Nat) : Nat → List Nat → List (Nat × List Nat) →
    Option (List Nat) × List Nat
  | 0, _, _ => (none, [])
  | fuel + 1, visited, queue =>
    match queue with
    | [] => (none, [])
    | (v, path) :: qs =>
      match spInner endv path visited [] ((adjGet g.adj v).map Prod.fst) with
      | Sum.inl found => (some found, [v])
      | Sum.inr (visited', newItems) =>
        let r := spAux g endv fuel visited' (qs ++ newItems)
        (r.1, v :: r.2)

/-- Fuel sufficient for `spAux`. -/
def spFuel (g : Graph) : Nat := (mentioned g).length + 1

/-- `Graph.shortest_path_bfs(start, end)`: `none` models Python's `None`. -/
def shortest_path_bfs (g : Graph) (start endv : Nat) : Option (List Nat) :=
  if start = endv then some [start]
  else (spAux g endv (spFuel g) [start] [(start, [start])]).1

/-- Vertices whose adjacency list `shortest_path_bfs` reads, in order. -/
def spPopped (g : Graph) (start endv : Nat) : List Nat :=
  if start = endv then []
  else (spAux g endv (spFuel g) [start] [(start, [start])]).2

/-- Edge relation of the graph: some adjacency entry of `u` targets `v`. -/
def Edge (g : Graph) (u v : Nat) : Prop := ∃ w, (v, w) ∈ adjGet g.adj u

/-- Reachability along edges. -/
def Reach (g : Graph) (u v : Nat) : Prop := Relation.ReflTransGen (Edge g) u v

/-- Weighted path: `IsPathW g u v p W` means `p` is a vertex sequence from `u`
to `v` following adjacency entries whose weights sum to `W`. -/
inductive IsPathW (g : Graph) : Nat → Nat → List Nat → Int → Prop
  | single (v : Nat) : IsPathW g v v [v] 0
  | cons (u n v : Nat) (w : Int) (p : List Nat) (W : Int) :
      (n, w) ∈ adjGet g.adj u → IsPathW g n v p W → IsPathW g u v (u :: p) (w + W)

/-- Unweighted path (some choice of parallel edges connects the vertices). -/
def IsPath (g : Graph) (u v : Nat) (p : List Nat) : Prop := ∃ W, IsPathW g u v p W

/-- The neighbor for-loop of `has_cycle_util`, with its three early-return-True
branches; on normal exit the vertex is removed from `rec_stack` in directed mode.
`rec` is the recursive `has_cycle_util` call at the remaining budget. -/
def hcNbrs (g : Graph) (rec : List Nat → List Nat → Nat → Int → List Nat × List Nat × Bool) :
    List Nat → List Nat → Nat → Int → List (Nat × Int) → List Nat × List Nat × Bool
  | vis, rs, v, _, [] => (vis, if g.directed then rs.filter (fun x => decide (x ≠ v)) else rs, false)
  | vis, rs, v, parent, (n, _) :: rest =>
      if n ∈ vis then
        (if g.directed then
          (if n ∈ rs then (vis, rs, true) else hcNbrs g rec vis rs v parent rest)
        else
          (if Int.ofNat n ≠ parent then (vis, rs, true) else hcNbrs g rec vis rs v parent rest))
      else
        let r := rec vis rs n (Int.ofNat v)
        if r.2.2 then r else hcNbrs g rec r.1 r.2.1 v parent rest

/-- `has_cycle_util(vertex, parent)`: state is (visited, rec_stack); `parent` is
the Python default `-1` at the roots and the (non-negative) integer value of the
parent vertex otherwise. -/
def hcVisit (g : Graph) : Nat → List Nat → List Nat → Nat → Int → List Nat × List Nat × Bool
  | 0, vis, rs, _, _ => (vis, rs, false)
  | fuel + 1, vis, rs, v, parent =>
      hcNbrs g (hcVisit g fuel) (vis ++ [v]) (if g.directed then rs ++ [v] else rs) v parent
        (adjGet g.adj v)

/-- Outer loop of `Graph.has_cycle` over the vertex set in iteration order. -/
def hcOuter (g : Graph) (fuel : Nat) : List Nat → List Nat → List Nat → Bool
  | _, _, [] => false
  | vis, rs, v :: rest =>
      if v ∈ vis then hcOuter g fuel vis rs rest
      else
        let r := hcVisit g fuel vis rs v (-1)
        if r.2.2 then true else hcOuter g fuel r.1 r.2.1 rest

/-- `Graph.has_cycle()`; `order` is the iteration order of the Python set
`self.vertices` (unspecified in CPython, hence a parameter). -/
def has_cycle (g : Graph) (order : List Nat) : Bool := hcOuter g (dfsFuel g) [] [] order

/-- Inner `dfs(vertex)` of `Graph.topological_sort`: identical traversal to
`Graph.dfs` except that the vertex is pushed on `stack` in post-order. -/
def tsVisit (g : Graph) : Nat → List Nat × List Nat → Nat → List Nat × List Nat
  | 0, st, _ => st
  | fuel + 1, st, v =>
      let r := visitFold (tsVisit g fuel) (st.1 ++ [v], st.2) ((adjGet g.adj v).map Prod.fst)
      (r.1, r.2 ++ [v])

/-- Outer loop of `Graph.topological_sort` over the vertex set in iteration order. -/
def tsOuter (g : Graph) (fuel : Nat) : List Nat × List Nat → List Nat → List Nat × List Nat
  | st, [] => st
  | st, v :: rest => tsOuter g fuel (if v ∈ st.1 then st else tsVisit g fuel st v) rest

/-- `Graph.topological_sort()`: `none` models the `ValueError` raised in
undirected mode; `order` is the set iteration order as in `has_cycle`. -/
def topological_sort (g : Graph) (order : List Nat) : Option (List Nat) :=
  if g.directed then some ((tsOuter g (dfsFuel g) ([], []) order).2.reverse) else none

/-- Exceptions of the Python `dijkstra`: a `KeyError` from a dictionary lookup,
or (model only) fuel exhaustion standing for non-termination. -/
inductive DError
  | keyError
  | outOfFuel
deriving DecidableEq

/-- Loop state of `Graph.dijkstra`: the `distances` dict (`none` = `float('infinity')`),
the `previous` dict, the priority queue contents, the `visited` set in insertion
order, and (model bookkeeping) the vertices whose adjacency list was read. -/
structure DijkState where
  distances : PyDict (Option Int)
  previous : PyDict Nat
  pq : List (Int × Nat)
  visited : List Nat
  processed : List Nat
deriving DecidableEq

/-- Strict lexicographic comparison of `(distance, vertex)` tuples, as Python
compares the tuples pushed on the heap. -/
def tupLtB (a b : Int × Nat) : Bool := a.1 < b.1 || (a.1 == b.1 && a.2 < b.2)

/-- Minimum of a priority-queue under `tupLtB` (ties keep the accumulator). -/
def findMin : (Int × Nat) → List (Int × Nat) → Int × Nat
  | m, [] => m
  | m, x :: xs => findMin (if tupLtB x m then x else m) xs

/-- Remove the first occurrence of a value from the priority queue.  Together
with `findMin` this models `heapq.heappop`: the popped element is the tuple-least
entry and the remaining multiset loses one copy of it. -/
def eraseFirst : List (Int × Nat) → (Int × Nat) → List (Int × Nat)
  | [], _ => []
  | x :: xs, y => if x = y then xs else x :: eraseFirst xs y

/-- The relaxation for-loop of `Graph.dijkstra` over `self.graph[current]`.
`Sum.inl st` models a `KeyError` raised by `distances[neighbor]` with the state
mutations made so far; `Sum.inr st` is normal completion. -/
def relaxAll (current : Nat) (cd : Int) : DijkState → List (Nat × Int) → Sum DijkState DijkState
  | st, [] => Sum.inr st
  | st, (n, w) :: rest =>
    let distance := cd + w
    match mapLookup st.distances n with
    | none => Sum.inl st
    | some old =>
      if (match old with | none => true | some o => decide (distance < o)) then
        relaxAll current cd
          { st with distances := mapSet st.distances n (some distance),
                    previous := mapSet st.previous n current,
                    pq := st.pq ++ [(distance, n)] } rest
      else relaxAll current cd st rest

/-- The while-loop of `Graph.dijkstra`.  Each iteration pops the tuple-least
entry; visited vertices are skipped; when `end` is supplied (and truthy, as all
modelled vertices are) the loop breaks once `end` is finalized. -/
def dijkLoop (g : Graph) (endv : Option Nat) : Nat → DijkState → DijkState × Option DError
  | 0, st => (st, some DError.outOfFuel)
  | fuel + 1, st =>
    match st.pq with
    | [] => (st, none)
    | e :: rest =>
      let m := findMin e rest
      let pq' := eraseFirst (e :: rest) m
      if m.2 ∈ st.visited then dijkLoop g endv fuel { st with pq := pq' }
      else
        let st1 := { st with pq := pq', visited := st.visited ++ [m.2] }
        if endv = some m.2 then (st1, none)
        else
          match relaxAll m.2 m.1 { st1 with processed := st1.processed ++ [m.2] }
              (adjGet g.adj m.2) with
          | Sum.inl st2 => (st2, some DError.keyError)
          | Sum.inr st2 => dijkLoop g endv fuel st2

/-- Initial dijkstra state: `distances = {v: inf for v in self.vertices}` then
`distances[start] = 0`; empty `previous`; `pq = [(0, start)]`; nothing visited. -/
def dijkInit (g : Graph) (start : Nat) : DijkState :=
  ⟨mapSet (g.vertices.map (fun v => (v, (none : Option Int)))) start (some 0),
   [], [(0, start)], [], []⟩

/-- Fuel sufficient for `dijkLoop` (proved where needed): one credit per queue
entry plus `1 + degree` credits per distance-map key. -/
def dijkFuel (g : Graph) (start : Nat) : Nat :=
  2 + ((dijkInit g start).distances.map (fun p => 1 + (adjGet g.adj p.1).length)).sum

/-- Run the dijkstra main loop from the initial state. -/
def dijkstraRun (g : Graph) (start : Nat) (endv : Option Nat) : DijkState × Option DError :=
  dijkLoop g endv (dijkFuel g start) (dijkInit g start)

/-- Path reconstruction of `Graph.dijkstra`: walk `previous` from `end`, append
`start`, reverse.  `none` models non-termination of the `while` walk. -/
def walkPrev (start : Nat) (previous : PyDict Nat) : Nat → Nat → List Nat → Option (List Nat)
  | 0, _, _ => none
  | fuel + 1, current, path =>
    match mapLookup previous current with
    | some u => walkPrev start previous fuel u (path ++ [current])
    | none => some ((path ++ [start]).reverse)

/-- Result of `Graph.dijkstra`: the full distance dict when `end` is omitted, or
the `(path-or-None, distance)` pair when `end` is supplied (`none` distance =
`float('infinity')`). -/
inductive DijkOut
  | dists (m : PyDict (Option Int))
  | pathDist (p : Option (List Nat)) (d : Option Int)
deriving DecidableEq

/-- `Graph.dijkstra(start, end)`: `Sum.inl` is a raised exception. -/
def dijkstra (g : Graph) (start : Nat) (endv : Option Nat) : Sum DError DijkOut :=
  match dijkstraRun g start endv with
  | (_, some e) => Sum.inl e
  | (st, none) =>
    match endv with
    | none => Sum.inr (DijkOut.dists st.distances)
    | some e =>
      match mapLookup st.distances e with
      | none => Sum.inl DError.keyError
      | some none => Sum.inr (DijkOut.pathDist none none)
      | some (some d) =>
        match walkPrev start st.previous (st.visited.length + 1) e [] with
        | none => Sum.inl DError.outOfFuel
        | some p => Sum.inr (DijkOut.pathDist (some p) (some d))

/-- One public `Graph` operation (the operations named by the spec's invariant). -/
inductive Op
  | addVertex (v : Nat)
  | addEdge (u v : Nat) (w : Int)
  | removeEdge (u v : Nat)
  | removeVertex (v : Nat)
  | getNeighbors (v : Nat)
  | hasEdge (u v : Nat)
  | bfsOp (s : Nat)
  | dfsOp (s : Nat)
  | shortestPath (s e : Nat)
  | dijkstraOp (s : Nat) (e : Option Nat)

/-- State effect of one public operation, including the `defaultdict`
auto-vivification performed by each query's `self.graph[...]` reads. -/
def execOp (g : Graph) : Op → Graph
  | .addVertex v => add_vertex g v
  | .addEdge u v w => add_edge g u v w
  | .removeEdge u v => remove_edge g u v
  | .removeVertex v => remove_vertex g v
  | .getNeighbors v => { g with adj := vivify g.adj v }
  | .hasEdge u _ => { g with adj := vivify g.adj u }
  | .bfsOp s => { g with adj := vivifyAll g.adj (bfsList g s) }
  | .dfsOp s => { g with adj := vivifyAll g.adj (dfsList g s) }
  | .shortestPath s e => { g with adj := vivifyAll g.adj (spPopped g s e) }
  | .dijkstraOp s e => { g with adj := vivifyAll g.adj ((dijkstraRun g s e).1.processed) }

/-- Execute a sequence of public operations on a fresh graph. -/
def execOps (directed : Bool) (ops : List Op) : Graph := ops.foldl execOp (graphInit directed)

/-! Basic lemmas about the dictionary and set models. -/

theorem mem_setAdd {s : List Nat} {v x : Nat} : x ∈ setAdd s v ↔ x ∈ s ∨ x = v := by
  unfold setAdd
  by_cases h : v ∈ s
  · simp only [if_pos h]
    constructor
    · exact Or.inl
    · rintro (hx | rfl)
      · exact hx
      · exact h
  · simp [if_neg h]

theorem setAdd_mem_self {s : List Nat} {v : Nat} : v ∈ setAdd s v :=
  mem_setAdd.mpr (Or.inr rfl)

theorem mem_setAdd_of_mem {s : List Nat} {v x : Nat} (h : x ∈ s) : x ∈ setAdd s v :=
  mem_setAdd.mpr (Or.inl h)

theorem setAdd_idem {s : List Nat} {v : Nat} : setAdd (setAdd s v) v = setAdd s v := by
  unfold setAdd
  by_cases h : v ∈ s <;> simp [h]

theorem mapLookup_append {β : Type} (d e : PyDict β) (v : Nat) :
    mapLookup (d ++ e) v =
      match mapLookup d v with
      | some x => some x
      | none => mapLookup e v := by
  induction d with
  | nil => simp [mapLookup]
  | cons p rest ih =>
    obtain ⟨k, x⟩ := p
    by_cases h : k = v <;> simp [mapLookup, h, ih]

theorem mapLookup_mem {β : Type} {d : PyDict β} {v : Nat} {x : β}
    (h : mapLookup d v = some x) : (v, x) ∈ d := by
  induction d with
  | nil => simp [mapLookup] at h
  | cons p rest ih =>
    obtain ⟨k, y⟩ := p
    by_cases hk : k = v
    · subst hk
      simp [mapLookup] at h
      subst h
      exact List.mem_cons_self _ _
    · simp [mapLookup, hk] at h
      exact List.mem_cons_of_mem _ (ih h)

theorem mem_mapSet {β : Type} {d : PyDict β} {k : Nat} {x : β} {p : Nat × β}
    (h : p ∈ mapSet d k x) : p = (k, x) ∨ p ∈ d := by
  induction d with
  | nil => simp [mapSet] at h; exact Or.inl h
  | cons q rest ih =>
    obtain ⟨a, b⟩ := q
    by_cases ha : a = k
    · subst ha
      simp [mapSet] at h
      rcases h with h | h
      · exact Or.inl (by simp [h])
      · exact Or.inr (List.mem_cons_of_mem _ h)
    · simp [mapSet, ha] at h
      rcases h with h | h
      · exact Or.inr (by simp [h])
      · rcases ih h with h' | h'
        · exact Or.inl h'
        · exact Or.inr (List.mem_cons_of_mem _ h')

theorem mapLookup_mapSet_self {β : Type} {d : PyDict β} {k : Nat} {x : β} :
    mapLookup (mapSet d k x) k = some x := by
  induction d with
  | nil => simp [mapSet, mapLookup]
  | cons q rest ih =>
    obtain ⟨a, b⟩ := q
    by_cases ha : a = k <;> simp [mapSet, mapLookup, ha, ih]

theorem mapLookup_mapSet_ne {β : Type} {d : PyDict β} {k v : Nat} {x : β} (h : k ≠ v) :
    mapLookup (mapSet d k x) v = mapLookup d v := by
  have hvk : ¬(v = k) := fun e => h e.symm
  induction d with
  | nil => simp [mapSet, mapLookup, hvk, h]
  | cons q rest ih =>
    obtain ⟨a, b⟩ := q
    by_cases ha : a = k
    · subst ha
      simp only [mapSet, if_pos rfl, mapLookup, if_neg h]
    · simp [mapSet, mapLookup, ha, ih]

theorem adjGet_vivify {adj : Adj} {x v : Nat} : adjGet (vivify adj x) v = adjGet adj v := by
  unfold vivify
  split
  · rfl
  · unfold adjGet
    rw [mapLookup_append]
    cases hv : mapLookup adj v with
    | some l => rfl
    | none =>
      by_cases hxv : x = v
      · subst hxv
        simp [mapLookup]
      · simp [mapLookup, hxv]

theorem adjGet_vivifyAll {adj : Adj} {vs : List Nat} {v : Nat} :
    adjGet (vivifyAll adj vs) v = adjGet adj v := by
  induction vs generalizing adj with
  | nil => rfl
  | cons a rest ih => simp [vivifyAll] at ih ⊢; rw [ih, adjGet_vivify]

theorem adjGet_mapSet_self {d : Adj} {k : Nat} {l : List (Nat × Int)} :
    adjGet (mapSet d k l) k = l := by
  unfold adjGet
  rw [mapLookup_mapSet_self]
  rfl

theorem adjGet_mapSet_ne {d : Adj} {k v : Nat} {l : List (Nat × Int)} (h : k ≠ v) :
    adjGet (mapSet d k l) v = adjGet d v := by
  unfold adjGet
  rw [mapLookup_mapSet_ne h]

/-! The reachable-state invariant behind claim C2: every neighbor is a known
vertex, and every adjacency key holding a non-empty list is a known vertex.
(Keys with empty lists can escape `vertices` through auto-vivification.) -/

/-- Every neighbor occurring in the adjacency map lies in `V`. -/
def AdjNbrsIn (adj : Adj) (V : List Nat) : Prop := ∀ p ∈ adj, ∀ e ∈ p.2, e.1 ∈ V

/-- Every adjacency key with a non-empty list lies in `V`. -/
def AdjKeysIn (adj : Adj) (V : List Nat) : Prop := ∀ p ∈ adj, p.2 ≠ [] → p.1 ∈ V

theorem adjGet_nbr_mem {adj : Adj} {V : List Nat} (h : AdjNbrsIn adj V) {u : Nat}
    {e : Nat × Int} (he : e ∈ adjGet adj u) : e.1 ∈ V := by
  unfold adjGet at he
  cases hl : mapLookup adj u with
  | none => rw [hl] at he; simp at he
  | some l => rw [hl] at he; exact h _ (mapLookup_mem hl) _ he

theorem adjGet_key_mem {adj : Adj} {V : List Nat} (h : AdjKeysIn adj V) {u : Nat}
    (hne : adjGet adj u ≠ []) : u ∈ V := by
  unfold adjGet at hne
  cases hl : mapLookup adj u with
  | none => rw [hl] at hne; simp at hne
  | some l => rw [hl] at hne; exact h _ (mapLookup_mem hl) hne

theorem adjNbrsIn_mono {adj : Adj} {V W : List Nat} (h : AdjNbrsIn adj V)
    (hVW : ∀ x ∈ V, x ∈ W) : AdjNbrsIn adj W :=
  fun p hp e he => hVW _ (h p hp e he)

theorem adjKeysIn_mono {adj : Adj} {V W : List Nat} (h : AdjKeysIn adj V)
    (hVW : ∀ x ∈ V, x ∈ W) : AdjKeysIn adj W :=
  fun p hp hne => hVW _ (h p hp hne)

theorem adjNbrsIn_mapSet {adj : Adj} {V : List Nat} {k : Nat} {l : List (Nat × Int)}
    (h : AdjNbrsIn adj V) (hl : ∀ e ∈ l, e.1 ∈ V) : AdjNbrsIn (mapSet adj k l) V := by
  intro p hp e he
  rcases mem_mapSet hp with rfl | hp'
  · exact hl e he
  · exact h p hp' e he

theorem adjKeysIn_mapSet {adj : Adj} {V : List Nat} {k : Nat} {l : List (Nat × Int)}
    (h : AdjKeysIn adj V) (hk : k ∈ V) : AdjKeysIn (mapSet adj k l) V := by
  intro p hp hne
  rcases mem_mapSet hp with rfl | hp'
  · exact hk
  · exact h p hp' hne

theorem adjNbrsIn_append_empty {adj : Adj} {V : List Nat} {v : Nat}
    (h : AdjNbrsIn adj V) : AdjNbrsIn (adj ++ [(v, [])]) V := by
  intro p hp e he
  rcases List.mem_append.mp hp with hp' | hp'
  · exact h p hp' e he
  · simp at hp'; subst hp'; simp at he

theorem adjKeysIn_append_empty {adj : Adj} {V : List Nat} {v : Nat}
    (h : AdjKeysIn adj V) : AdjKeysIn (adj ++ [(v, [])]) V := by
  intro p hp hne
  rcases List.mem_append.mp hp with hp' | hp'
  · exact h p hp' hne
  · simp at hp'; subst hp'; simp at hne

theorem adjNbrsIn_vivify {adj : Adj} {V : List Nat} {v : Nat}
    (h : AdjNbrsIn adj V) : AdjNbrsIn (vivify adj v) V := by
  unfold vivify
  split
  · exact h
  · exact adjNbrsIn_append_empty h

theorem adjKeysIn_vivify {adj : Adj} {V : List Nat} {v : Nat}
    (h : AdjKeysIn adj V) : AdjKeysIn (vivify adj v) V := by
  unfold vivify
  split
  · exact h
  · exact adjKeysIn_append_empty h

theorem adjNbrsIn_vivifyAll {adj : Adj} {V : List Nat} {vs : List Nat}
    (h : AdjNbrsIn adj V) : AdjNbrsIn (vivifyAll adj vs) V := by
  induction vs generalizing adj with
  | nil => exact h
  | cons a rest ih => exact ih (adjNbrsIn_vivify h)

theorem adjKeysIn_vivifyAll {adj : Adj} {V : List Nat} {vs : List Nat}
    (h : AdjKeysIn adj V) : AdjKeysIn (vivifyAll adj vs) V := by
  induction vs generalizing adj with
  | nil => exact h
  | cons a rest ih => exact ih (adjKeysIn_vivify h)

theorem inv_execOp {g : Graph} (h1 : AdjNbrsIn g.adj g.vertices)
    (h2 : AdjKeysIn g.adj g.vertices) (op : Op) :
    AdjNbrsIn (execOp g op).adj (execOp g op).vertices ∧
    AdjKeysIn (execOp g op).adj (execOp g op).vertices := by
  cases op with
  | addVertex v =>
    constructor
    · intro p hp e he
      simp only [execOp, add_vertex] at hp ⊢
      split at hp
      · exact mem_setAdd_of_mem (h1 p hp e he)
      · exact mem_setAdd_of_mem (adjNbrsIn_append_empty h1 p hp e he)
    · intro p hp hne
      simp only [execOp, add_vertex] at hp ⊢
      split at hp
      · exact mem_setAdd_of_mem (h2 p hp hne)
      · exact mem_setAdd_of_mem (adjKeysIn_append_empty h2 p hp hne)
  | addEdge u v w =>
    simp only [execOp, add_edge]
    have hmem : ∀ x ∈ g.vertices, x ∈ setAdd (setAdd g.vertices u) v :=
      fun x hx => mem_setAdd_of_mem (mem_setAdd_of_mem hx)
    have hu : u ∈ setAdd (setAdd g.vertices u) v := mem_setAdd_of_mem setAdd_mem_self
    have hv : v ∈ setAdd (setAdd g.vertices u) v := setAdd_mem_self
    have h1' : AdjNbrsIn (adjAppend g.adj u (v, w)) (setAdd (setAdd g.vertices u) v) := by
      apply adjNbrsIn_mapSet (adjNbrsIn_mono h1 hmem)
      intro e he
      rcases List.mem_append.mp he with he' | he'
      · exact hmem _ (adjGet_nbr_mem h1 he')
      · simp at he'; subst he'; exact hv
    have h2' : AdjKeysIn (adjAppend g.adj u (v, w)) (setAdd (setAdd g.vertices u) v) :=
      adjKeysIn_mapSet (adjKeysIn_mono h2 hmem) hu
    split
    · exact ⟨h1', h2'⟩
    · constructor
      · apply adjNbrsIn_mapSet h1'
        intro e he
        rcases List.mem_append.mp he with he' | he'
        · exact adjGet_nbr_mem h1' he'
        · simp at he'; subst he'; exact hu
      · exact adjKeysIn_mapSet h2' hv
  | removeEdge u v =>
    simp only [execOp, remove_edge]
    have h1' : AdjNbrsIn (mapSet g.adj u ((adjGet g.adj u).filter (fun e => decide (e.1 ≠ v))))
        g.vertices := by
      apply adjNbrsIn_mapSet h1
      intro e he
      exact adjGet_nbr_mem h1 (List.mem_of_mem_filter he)
    have h2' : AdjKeysIn (mapSet g.adj u ((adjGet g.adj u).filter (fun e => decide (e.1 ≠ v))))
        g.vertices := by
      intro p hp hne
      rcases mem_mapSet hp with rfl | hp'
      · apply adjGet_key_mem h2
        intro hempty
        rw [hempty] at hne
        simp at hne
      · exact h2 p hp' hne
    split
    · exact ⟨h1', h2'⟩
    · constructor
      · apply adjNbrsIn_mapSet h1'
        intro e he
        exact adjGet_nbr_mem h1' (List.mem_of_mem_filter he)
      · intro p hp hne
        rcases mem_mapSet hp with rfl | hp'
        · apply adjGet_key_mem h2'
          intro hempty
          rw [hempty] at hne
          simp at hne
        · exact h2' p hp' hne
  | removeVertex v =>
    simp only [execOp, remove_vertex]
    constructor
    · intro p hp e he
      have hp1 := List.mem_of_mem_filter hp
      obtain ⟨q, hq, hqe⟩ := List.mem_map.mp hp1
      rw [← hqe] at he
      simp only [] at he
      have he2 := List.mem_of_mem_filter he
      have hne : e.1 ≠ v := by
        have := List.of_mem_filter he
        simpa using this
      rw [List.mem_filter]
      exact ⟨h1 q hq e he2, by simpa using hne⟩
    · intro p hp hne
      have hp1 := List.mem_of_mem_filter hp
      have hkey : p.1 ≠ v := by
        have := List.of_mem_filter hp
        simpa using this
      obtain ⟨q, hq, hqe⟩ := List.mem_map.mp hp1
      have hq2 : q.2 ≠ [] := by
        intro hempty
        rw [← hqe] at hne
        simp [hempty] at hne
      rw [List.mem_filter]
      refine ⟨?_, by simpa using hkey⟩
      have := h2 q hq hq2
      rw [← hqe]
      simpa using this
  | getNeighbors v => exact ⟨adjNbrsIn_vivify h1, adjKeysIn_vivify h2⟩
  | hasEdge u v => exact ⟨adjNbrsIn_vivify h1, adjKeysIn_vivify h2⟩
  | bfsOp s => exact ⟨adjNbrsIn_vivifyAll h1, adjKeysIn_vivifyAll h2⟩
  | dfsOp s => exact ⟨adjNbrsIn_vivifyAll h1, adjKeysIn_vivifyAll h2⟩
  | shortestPath s e => exact ⟨adjNbrsIn_vivifyAll h1, adjKeysIn_vivifyAll h2⟩
  | dijkstraOp s e => exact ⟨adjNbrsIn_vivifyAll h1, adjKeysIn_vivifyAll h2⟩

theorem inv_execOps (directed : Bool) (ops : List Op) :
    AdjNbrsIn (execOps directed ops).adj (execOps directed ops).vertices ∧
    AdjKeysIn (execOps directed ops).adj (execOps directed ops).vertices := by
  unfold execOps
  have h : ∀ (g : Graph), AdjNbrsIn g.adj g.vertices → AdjKeysIn g.adj g.vertices →
      AdjNbrsIn (ops.foldl execOp g).adj (ops.foldl execOp g).vertices ∧
      AdjKeysIn (ops.foldl execOp g).adj (ops.foldl execOp g).vertices := by
    induction ops with
    | nil => exact fun g ha hb => ⟨ha, hb⟩
    | cons op rest ih =>
      intro g ha hb
      have := inv_execOp ha hb op
      exact ih _ this.1 this.2
  exact h _ (by intro p hp e he; simp [graphInit] at hp) (by intro p hp hne; simp [graphInit] at hp)

theorem adjHasKey_append_self {adj : Adj} {v : Nat} {l : List (Nat × Int)} :
    adjHasKey (adj ++ [(v, l)]) v = true := by
  unfold adjHasKey
  rw [mapLookup_append]
  cases hl : mapLookup adj v with
  | some x => simp
  | none => simp [mapLookup]

/-- Claim C2 (original wording, refuted): after every operation sequence,
`vertices` is a superset of every adjacency key.  Counterexample: a single
`get_neighbors(0)` on a fresh graph auto-vivifies key `0` in the `defaultdict`
while `vertices` stays empty. -/
theorem claim_C2_counterexample :
    (0, ([] : List (Nat × Int))) ∈ (execOps false [Op.getNeighbors 0]).adj ∧
    0 ∉ (execOps false [Op.getNeighbors 0]).vertices := by decide

/-- Claim C2 (amended): after every sequence of public operations, `vertices`
contains every vertex appearing as a neighbor in any adjacency list, and every
adjacency key whose list is non-empty (keys auto-vivified with an empty list by
`defaultdict` reads are the only exception). -/
theorem claim_C2_amended (directed : Bool) (ops : List Op) :
    (∀ p ∈ (execOps directed ops).adj, ∀ e ∈ p.2, e.1 ∈ (execOps directed ops).vertices) ∧
    (∀ p ∈ (execOps directed ops).adj, p.2 ≠ [] → p.1 ∈ (execOps directed ops).vertices) :=
  inv_execOps directed ops

/-- Claim C8: `add_vertex` is idempotent: a second `add_vertex(v)` changes
neither `vertices` nor the adjacency map (hence not `v`'s entry), and raises no
error (it is a total function). -/
theorem claim_C8 (g : Graph) (v : Nat) :
    (add_vertex (add_vertex g v) v).vertices = (add_vertex g v).vertices ∧
    (add_vertex (add_vertex g v) v).adj = (add_vertex g v).adj := by
  constructor
  · simp only [add_vertex]
    exact setAdd_idem
  · simp only [add_vertex]
    by_cases h : adjHasKey g.adj v
    · simp [h]
    · simp [h, adjHasKey_append_self]

/-- Claim C10: when `v` already has a non-empty adjacency list, `add_vertex(v)`
leaves the whole adjacency map (in particular `v`'s entry and every other
vertex's entry) unchanged. -/
theorem claim_C10 (g : Graph) (v : Nat) (h : adjGet g.adj v ≠ []) :
    (add_vertex g v).adj = g.adj := by
  have hk : adjHasKey g.adj v := by
    unfold adjHasKey
    unfold adjGet at h
    cases hl : mapLookup g.adj v with
    | none => rw [hl] at h; simp at h
    | some l => simp
  simp [add_vertex, hk]

/-- Witness for claim C10 at a concrete graph with an edge out of vertex 0. -/
theorem claim_C10_witness :
    adjGet (add_edge (graphInit false) 0 1 1).adj 0 ≠ [] ∧
    (add_vertex (add_edge (graphInit false) 0 1 1) 0).adj = (add_edge (graphInit false) 0 1 1).adj :=
  ⟨by decide, claim_C10 _ 0 (by decide)⟩

/-! Claim C7: queries on a vertex that was never added. -/

/-- Does this operation add `v` to the graph (explicitly or via an edge)? -/
def opAddsV : Op → Nat → Bool
  | .addVertex x, v => x == v
  | .addEdge u x _, v => u == v || x == v
  | _, _ => false

theorem adjGet_append_ne {adj : Adj} {x v : Nat} {l : List (Nat × Int)} (h : x ≠ v) :
    adjGet (adj ++ [(x, l)]) v = adjGet adj v := by
  unfold adjGet
  rw [mapLookup_append]
  cases hl : mapLookup adj v with
  | some y => rfl
  | none => simp [mapLookup, h]

theorem mapLookup_map_value {β γ : Type} (f : β → γ) (d : PyDict β) (v : Nat) :
    mapLookup (d.map (fun p => (p.1, f p.2))) v = (mapLookup d v).map f := by
  induction d with
  | nil => simp [mapLookup]
  | cons p rest ih =>
    obtain ⟨k, x⟩ := p
    by_cases h : k = v <;> simp [mapLookup, h, ih]

theorem mapLookup_filter_keys {β : Type} (d : PyDict β) (x v : Nat) :
    mapLookup (d.filter (fun p => decide (p.1 ≠ x))) v =
      if v = x then none else mapLookup d v := by
  induction d with
  | nil => by_cases hvx : v = x <;> simp [mapLookup, hvx]
  | cons p rest ih =>
    obtain ⟨k, y⟩ := p
    rw [List.filter_cons]
    by_cases hk : k = x
    · rw [if_neg (by simp [hk])]
      rw [ih]
      by_cases hvx : v = x
      · simp [hvx]
      · rw [if_neg hvx, if_neg hvx]
        have hkv : ¬(k = v) := by rw [hk]; exact fun e => hvx e.symm
        simp [mapLookup, hkv]
    · rw [if_pos (by simp [hk])]
      by_cases hkv : k = v
      · have hvx : ¬(v = x) := fun e => hk (hkv.trans e)
        simp [mapLookup, hkv, hvx]
      · simp only [mapLookup, if_neg hkv]
        exact ih

theorem adjGet_execOp_empty {g : Graph} {v : Nat} (h : adjGet g.adj v = [])
    {op : Op} (hop : opAddsV op v = false) : adjGet (execOp g op).adj v = [] := by
  cases op with
  | addVertex x =>
    simp [opAddsV] at hop
    simp only [execOp, add_vertex]
    split
    · exact h
    · rw [adjGet_append_ne hop]; exact h
  | addEdge u x w =>
    simp [opAddsV] at hop
    obtain ⟨hu, hx⟩ := hop
    simp only [execOp, add_edge]
    have h1 : adjGet (adjAppend g.adj u (x, w)) v = [] := by
      unfold adjAppend
      rw [adjGet_mapSet_ne hu]
      exact h
    split
    · exact h1
    · unfold adjAppend
      rw [adjGet_mapSet_ne hx]
      exact h1
  | removeEdge u x =>
    simp only [execOp, remove_edge]
    have step : ∀ (a : Adj) (k t : Nat), adjGet a v = [] →
        adjGet (mapSet a k ((adjGet a k).filter (fun e => decide (e.1 ≠ t)))) v = [] := by
      intro a k t ha
      by_cases hk : k = v
      · subst hk
        rw [adjGet_mapSet_self, ha]
        rfl
      · rw [adjGet_mapSet_ne hk]
        exact ha
    split
    · exact step _ _ _ h
    · exact step _ _ _ (step _ _ _ h)
  | removeVertex x =>
    simp only [execOp, remove_vertex]
    unfold adjGet
    rw [mapLookup_filter_keys]
    split
    · rfl
    · rw [mapLookup_map_value]
      unfold adjGet at h
      cases hl : mapLookup g.adj v with
      | none => rfl
      | some l =>
        rw [hl] at h
        simp at h
        subst h
        rfl
  | getNeighbors x => simp only [execOp]; rw [adjGet_vivify]; exact h
  | hasEdge u x => simp only [execOp]; rw [adjGet_vivify]; exact h
  | bfsOp s => simp only [execOp]; rw [adjGet_vivifyAll]; exact h
  | dfsOp s => simp only [execOp]; rw [adjGet_vivifyAll]; exact h
  | shortestPath s e => simp only [execOp]; rw [adjGet_vivifyAll]; exact h
  | dijkstraOp s e => simp only [execOp]; rw [adjGet_vivifyAll]; exact h

theorem adjGet_execOps_empty (directed : Bool) (ops : List Op) (v : Nat)
    (h : ∀ op ∈ ops, opAddsV op v = false) : adjGet (execOps directed ops).adj v = [] := by
  unfold execOps
  have step : ∀ (g : Graph), adjGet g.adj v = [] →
      adjGet ((ops.foldl execOp g)).adj v = [] := by
    induction ops with
    | nil => exact fun g hg => hg
    | cons op rest ih =>
      intro g hg
      simp only [List.foldl]
      exact ih (fun o ho => h o (List.mem_cons_of_mem _ ho))
        _ (adjGet_execOp_empty hg (h op (List.mem_cons_self _ _)))
  exact step _ rfl

theorem bfsAux_nil_queue (g : Graph) (fuel : Nat) (vis : List Nat) :
    bfsAux g fuel vis [] = [] := by
  cases fuel <;> rfl

theorem bfs_single {g : Graph} {v : Nat} (h : adjGet g.adj v = []) : bfsList g v = [v] := by
  unfold bfsList bfsFuel
  simp [bfsAux, h, newNeighbors, bfsAux_nil_queue]

theorem dfs_single {g : Graph} {v : Nat} (h : adjGet g.adj v = []) : dfsList g v = [v] := by
  unfold dfsList dfsFuel
  simp [dfsVisit, h, visitFold]

/-- Claim C7: a vertex never added (explicitly or via any edge) can be queried
without error: `get_neighbors` gives the empty list, `bfs` and `dfs` give the
single-vertex traversal. -/
theorem claim_C7 (directed : Bool) (ops : List Op) (v : Nat)
    (h : ∀ op ∈ ops, opAddsV op v = false) :
    get_neighbors (execOps directed ops) v = [] ∧
    bfsList (execOps directed ops) v = [v] ∧
    dfsList (execOps directed ops) v = [v] := by
  have he := adjGet_execOps_empty directed ops v h
  exact ⟨he, bfs_single he, dfs_single he⟩

/-- Witness for claim C7: an edge 1→2 is added, vertex 0 is never added. -/
theorem claim_C7_witness :
    (∀ op ∈ [Op.addEdge 1 2 1], opAddsV op 0 = false) ∧
    (get_neighbors (execOps false [Op.addEdge 1 2 1]) 0 = [] ∧
     bfsList (execOps false [Op.addEdge 1 2 1]) 0 = [0] ∧
     dfsList (execOps false [Op.addEdge 1 2 1]) 0 = [0]) :=
  ⟨by decide, claim_C7 false [Op.addEdge 1 2 1] 0 (by decide)⟩

/-! Claim C1: two parallel edges between the same pair in undirected mode. -/

/-- The graph built by exactly two calls `add_edge(u, v)` on a fresh undirected
graph (default weight 1): two parallel edges and nothing else. -/
def parallelPair (u v : Nat) : Graph := add_edge (add_edge (graphInit false) u v 1) u v 1

theorem ofNat_ne_neg_one (n : Nat) : ¬ (Int.ofNat n = -1) := by
  rw [Int.ofNat_eq_natCast]
  omega

theorem parallelPair_adj (u v : Nat) (h : u ≠ v) :
    (parallelPair u v).adj = [(u, [(v,1),(v,1)]), (v, [(u,1),(u,1)])] ∧
    (parallelPair u v).vertices = [u, v] := by
  have h' : ¬(v = u) := fun e => h e.symm
  constructor <;>
    simp [parallelPair, add_edge, graphInit, adjAppend, adjGet, mapLookup, mapSet, setAdd, h, h']

theorem hc_parallel_uv (u v : Nat) (h : u ≠ v) : has_cycle (parallelPair u v) [u, v] = true := by
  have h' : ¬(v = u) := fun e => h e.symm
  obtain ⟨ha, hv⟩ := parallelPair_adj u v h
  have hd : (parallelPair u v).directed = false := rfl
  have hm : dfsFuel (parallelPair u v) = 8 := by
    simp [dfsFuel, mentioned, ha]
  unfold has_cycle
  rw [hm]
  simp [hcOuter, hcVisit, hcNbrs, hd, ha, adjGet, mapLookup, mapSet, h, h',
        ofNat_ne_neg_one]

theorem hc_parallel_vu (u v : Nat) (h : u ≠ v) : has_cycle (parallelPair u v) [v, u] = true := by
  have h' : ¬(v = u) := fun e => h e.symm
  obtain ⟨ha, hv⟩ := parallelPair_adj u v h
  have hd : (parallelPair u v).directed = false := rfl
  have hm : dfsFuel (parallelPair u v) = 8 := by
    simp [dfsFuel, mentioned, ha]
  unfold has_cycle
  rw [hm]
  simp [hcOuter, hcVisit, hcNbrs, hd, ha, adjGet, mapLookup, mapSet, h, h',
        ofNat_ne_neg_one]

theorem perm_pair {l : List Nat} {u v : Nat} (h : u ≠ v) (hp : l.Perm [u, v]) :
    l = [u, v] ∨ l = [v, u] := by
  have hlen := hp.length_eq
  match l, hp, hlen with
  | [a, b], hp, _ =>
    have ha : a ∈ [u, v] := hp.mem_iff.mp (by simp)
    have hb : b ∈ [u, v] := hp.mem_iff.mp (by simp)
    have hcv := hp.count_eq v
    have hcu := hp.count_eq u
    simp at ha hb
    have h' : ¬(v = u) := fun e => h e.symm
    rcases ha with rfl | rfl
    · rcases hb with rfl | rfl
      · simp [List.count_cons, h, h'] at hcv
      · exact Or.inl rfl
    · rcases hb with rfl | rfl
      · exact Or.inr rfl
      · simp [List.count_cons, h, h'] at hcu

/-- Claim C1 (original wording, refuted at a concrete instance): on the
undirected graph with exactly two parallel edges 0–1, `has_cycle()` returns
`True` (for either iteration order of the two-element vertex set), not `False`
as the claim states. -/
theorem claim_C1_counterexample :
    has_cycle (parallelPair 0 1) [0, 1] = true ∧ has_cycle (parallelPair 0 1) [1, 0] = true := by
  decide

/-- Claim C1 (amended): for every undirected graph holding exactly two parallel
edges between distinct `u` and `v` and nothing else, `has_cycle()` returns
`True` (for every iteration order of the vertex set): at the DFS root the
tracked parent is the sentinel `-1`, not a vertex, so the second parallel edge
is reported as a cycle. -/
theorem claim_C1_amended (u v : Nat) (h : u ≠ v) (ord : List Nat)
    (hord : ord.Perm (parallelPair u v).vertices) : has_cycle (parallelPair u v) ord = true := by
  rw [(parallelPair_adj u v h).2] at hord
  rcases perm_pair h hord with rfl | rfl
  · exact hc_parallel_uv u v h
  · exact hc_parallel_vu u v h

/-- Witness for the amended claim C1 at `u = 0`, `v = 1`. -/
theorem claim_C1_witness :
    (0 : Nat) ≠ 1 ∧ [0, 1].Perm (parallelPair 0 1).vertices ∧
    has_cycle (parallelPair 0 1) [0, 1] = true :=
  ⟨by decide, by decide, claim_C1_amended 0 1 (by decide) [0, 1] (by decide)⟩

/-! Claim C4: the directed DAG A→C, B→C, B→D, C→E, D→F, E→F.
Vertices are labelled A=0, B=1, C=2, D=3, E=4, F=5.  Since CPython's set
iteration order is unspecified, the claims are settled for every enumeration of
the vertex set, via a structurally computable permutation enumerator. -/

/-- All insertions of `a` into `l`. -/
def insertsOf (a : Nat) : List Nat → List (List Nat)
  | [] => [[a]]
  | b :: l => (a :: b :: l) :: (insertsOf a l).map (fun t => b :: t)

/-- All permutations of `l` (computable by kernel reduction). -/
def permsOf : List Nat → List (List Nat)
  | [] => [[]]
  | a :: l => (permsOf l).flatMap (insertsOf a)

theorem perm_of_mem_insertsOf {a : Nat} {l t : List Nat} (h : t ∈ insertsOf a l) :
    t.Perm (a :: l) := by
  induction l generalizing t with
  | nil => simp [insertsOf] at h; subst h; rfl
  | cons b l ih =>
    simp only [insertsOf, List.mem_cons, List.mem_map] at h
    rcases h with rfl | ⟨t', ht', rfl⟩
    · rfl
    · exact (List.Perm.cons b (ih ht')).trans (List.Perm.swap a b l)

theorem mem_insertsOf_append (a : Nat) (t1 t2 : List Nat) :
    (t1 ++ a :: t2) ∈ insertsOf a (t1 ++ t2) := by
  induction t1 with
  | nil => cases t2 <;> simp [insertsOf]
  | cons b t1 ih =>
    simp only [List.cons_append, insertsOf, List.mem_cons, List.mem_map]
    exact Or.inr ⟨t1 ++ a :: t2, ih, rfl⟩

theorem mem_permsOf {l t : List Nat} : t ∈ permsOf l ↔ t.Perm l := by
  constructor
  · intro h
    induction l generalizing t with
    | nil => simp [permsOf] at h; subst h; rfl
    | cons a l ih =>
      simp only [permsOf, List.mem_flatMap] at h
      obtain ⟨q, hq, ht⟩ := h
      exact (perm_of_mem_insertsOf ht).trans (List.Perm.cons a (ih hq))
  · intro h
    induction l generalizing t with
    | nil => simp [permsOf, h.eq_nil]
    | cons a l ih =>
      have ha : a ∈ t := h.mem_iff.mpr (List.mem_cons_self a l)
      obtain ⟨t1, t2, rfl⟩ := List.append_of_mem ha
      have hmid : (t1 ++ a :: t2).Perm (a :: (t1 ++ t2)) := List.perm_middle
      have h2 : (t1 ++ t2).Perm l := (hmid.symm.trans h).cons_inv
      simp only [permsOf, List.mem_flatMap]
      exact ⟨t1 ++ t2, ih h2, mem_insertsOf_append a t1 t2⟩

/-- The directed graph of claim C4, built by the six `add_edge` calls of the
repository's example (A=0, B=1, C=2, D=3, E=4, F=5). -/
def dagC4 : Graph :=
  add_edge (add_edge (add_edge (add_edge (add_edge (add_edge (graphInit true)
    0 2 1) 1 2 1) 1 3 1) 2 4 1) 3 5 1) 4 5 1

/-- Vertex `a` appears strictly before vertex `b` in the list `l`. -/
def precedes (l : List Nat) (a b : Nat) : Prop := l.indexOf a < l.indexOf b

instance (l : List Nat) (a b : Nat) : Decidable (precedes l a b) :=
  inferInstanceAs (Decidable (l.indexOf a < l.indexOf b))

/-- Boolean check of the amended C4 property for one iteration order. -/
def checkC4 (ord : List Nat) : Bool :=
  !(has_cycle dagC4 ord) &&
  (match topological_sort dagC4 ord with
   | none => false
   | some l => decide (precedes l 0 2) && decide (precedes l 1 2) && decide (precedes l 1 3)
       && decide (precedes l 2 4) && decide (precedes l 4 5))

set_option maxRecDepth 10000 in
theorem c4_all : (permsOf dagC4.vertices).all checkC4 = true := by decide

/-- Claim C4 (original wording, refuted): the claimed orderings "A before D"
and "D before E" fail for realizable iteration orders of the vertex set: with
order [A,B,C,D,E,F] the sort returns [B,D,A,C,E,F] (A after D), and with order
[D,E,A,B,C,F] it returns [B,A,C,E,D,F] (D after E). -/
theorem claim_C4_counterexample :
    [0,1,2,3,4,5].Perm dagC4.vertices ∧
    topological_sort dagC4 [0,1,2,3,4,5] = some [1,3,0,2,4,5] ∧
    ¬ precedes [1,3,0,2,4,5] 0 3 ∧
    [3,4,0,1,2,5].Perm dagC4.vertices ∧
    topological_sort dagC4 [3,4,0,1,2,5] = some [1,0,2,4,3,5] ∧
    ¬ precedes [1,0,2,4,3,5] 3 4 := by decide

/-- Claim C4 (amended): for every iteration order of the vertex set,
`has_cycle()` returns False and `topological_sort()` returns an ordering in
which A appears before C, B appears before C and D, C appears before E, and E
appears before F (the edge-implied precedences; "A before D" and "D before E"
are not guaranteed). -/
theorem claim_C4_amended (ord : List Nat) (hord : ord.Perm dagC4.vertices) :
    has_cycle dagC4 ord = false ∧
    ∃ l, topological_sort dagC4 ord = some l ∧
      precedes l 0 2 ∧ precedes l 1 2 ∧ precedes l 1 3 ∧ precedes l 2 4 ∧ precedes l 4 5 := by
  have hmem : ord ∈ permsOf dagC4.vertices := mem_permsOf.mpr hord
  have hc := List.all_eq_true.mp c4_all ord hmem
  unfold checkC4 at hc
  rw [Bool.and_eq_true] at hc
  obtain ⟨h1, h2⟩ := hc
  refine ⟨by simpa using h1, ?_⟩
  cases hts : topological_sort dagC4 ord with
  | none => rw [hts] at h2; simp at h2
  | some l =>
    rw [hts] at h2
    simp only [Bool.and_eq_true, decide_eq_true_eq] at h2
    exact ⟨l, rfl, h2.1.1.1.1, h2.1.1.1.2, h2.1.1.2, h2.1.2, h2.2⟩

/-- Witness for the amended claim C4 at the insertion iteration order. -/
theorem claim_C4_witness :
    [0,2,1,3,4,5].Perm dagC4.vertices ∧
    (has_cycle dagC4 [0,2,1,3,4,5] = false ∧
     ∃ l, topological_sort dagC4 [0,2,1,3,4,5] = some l ∧
       precedes l 0 2 ∧ precedes l 1 2 ∧ precedes l 1 3 ∧ precedes l 2 4 ∧ precedes l 4 5) :=
  ⟨by decide, claim_C4_amended [0,2,1,3,4,5] (by decide)⟩

/-! Claim C6: BFS/DFS visit exactly the reachable vertices, start first. -/

theorem edge_iff_mem_map {g : Graph} {u v : Nat} :
    Edge g u v ↔ v ∈ (adjGet g.adj u).map Prod.fst := by
  unfold Edge
  constructor
  · rintro ⟨w, hw⟩
    exact List.mem_map.mpr ⟨(v, w), hw, rfl⟩
  · intro h
    obtain ⟨e, he, hfst⟩ := List.mem_map.mp h
    exact ⟨e.2, by rw [← hfst]; exact he⟩

theorem nbr_mem_mentioned {g : Graph} {v x : Nat}
    (h : x ∈ (adjGet g.adj v).map Prod.fst) : x ∈ mentioned g := by
  unfold adjGet at h
  cases hl : mapLookup g.adj v with
  | none => rw [hl] at h; simp at h
  | some l =>
    rw [hl] at h
    unfold mentioned
    refine List.mem_append.mpr (Or.inr ?_)
    exact List.mem_flatMap.mpr ⟨(v, l), mapLookup_mem hl, h⟩

theorem mem_newNeighbors {ns vis : List Nat} {x : Nat} :
    x ∈ newNeighbors vis ns ↔ x ∈ ns ∧ x ∉ vis := by
  induction ns generalizing vis with
  | nil => simp [newNeighbors]
  | cons n ns ih =>
    unfold newNeighbors
    by_cases hn : n ∈ vis
    · rw [if_pos hn, ih]
      constructor
      · rintro ⟨h1, h2⟩
        exact ⟨List.mem_cons_of_mem _ h1, h2⟩
      · rintro ⟨h1, h2⟩
        rcases List.mem_cons.mp h1 with rfl | h1'
        · exact absurd hn h2
        · exact ⟨h1', h2⟩
    · rw [if_neg hn]
      constructor
      · intro hx
        rcases List.mem_cons.mp hx with rfl | hx'
        · exact ⟨List.mem_cons_self _ _, hn⟩
        · have := ih.mp hx'
          refine ⟨List.mem_cons_of_mem _ this.1, fun hv => this.2 ?_⟩
          exact List.mem_append.mpr (Or.inl hv)
      · rintro ⟨h1, h2⟩
        rcases List.mem_cons.mp h1 with rfl | h1'
        · exact List.mem_cons_self _ _
        · by_cases hxn : x = n
          · subst hxn; exact List.mem_cons_self _ _
          · refine List.mem_cons_of_mem _ (ih.mpr ⟨h1', fun hv => ?_⟩)
            rcases List.mem_append.mp hv with hv' | hv'
            · exact h2 hv'
            · simp at hv'; exact hxn hv'

theorem newNeighbors_nodup {ns : List Nat} : ∀ {vis : List Nat}, (newNeighbors vis ns).Nodup := by
  induction ns with
  | nil => intro vis; simp [newNeighbors]
  | cons n ns ih =>
    intro vis
    unfold newNeighbors
    by_cases hn : n ∈ vis
    · rw [if_pos hn]; exact ih
    · rw [if_neg hn]
      refine List.nodup_cons.mpr ⟨fun hmem => ?_, ih⟩
      have := (mem_newNeighbors.mp hmem).2
      exact this (List.mem_append.mpr (Or.inr (by simp)))

/-- Length of the not-yet-visited part of a candidate list: the fuel measure of
the traversal loops. -/
def filterNM (cand V : List Nat) : Nat := (cand.filter (fun x => decide (x ∉ V))).length

theorem filterNM_mono {cand V W : List Nat} (h : ∀ x, x ∈ V → x ∈ W) :
    filterNM cand W ≤ filterNM cand V := by
  unfold filterNM
  induction cand with
  | nil => simp
  | cons a cand ih =>
    rw [List.filter_cons, List.filter_cons]
    by_cases haW : a ∈ W
    · rw [if_neg (by simp [haW])]
      by_cases haV : a ∈ V
      · rw [if_neg (by simp [haV])]; exact ih
      · rw [if_pos (by simp [haV])]; exact Nat.le_succ_of_le ih
    · have haV : a ∉ V := fun hv => haW (h a hv)
      rw [if_pos (by simp [haW]), if_pos (by simp [haV])]
      exact Nat.succ_le_succ ih

theorem filterNM_out_one {cand V : List Nat} {n : Nat} (hn : n ∈ cand) (hnv : n ∉ V) :
    filterNM cand (V ++ [n]) < filterNM cand V := by
  unfold filterNM
  induction cand with
  | nil => simp at hn
  | cons a cand ih =>
    rw [List.filter_cons, List.filter_cons]
    by_cases han : a = n
    · subst han
      rw [if_neg (by simp), if_pos (by simp [hnv])]
      have : filterNM cand (V ++ [a]) ≤ filterNM cand V :=
        filterNM_mono (fun x hx => List.mem_append.mpr (Or.inl hx))
      exact Nat.lt_succ_of_le this
    · have hn' : n ∈ cand := by
        rcases List.mem_cons.mp hn with h | h
        · exact absurd h.symm han
        · exact h
      by_cases haV : a ∈ V
      · have haVn : a ∈ V ++ [n] := List.mem_append.mpr (Or.inl haV)
        rw [if_neg (by simp [haVn]), if_neg (by simp [haV])]
        exact ih hn'
      · have : a ∉ V ++ [n] := by
          intro h
          rcases List.mem_append.mp h with h' | h'
          · exact haV h'
          · simp at h'; exact han h'
        rw [if_pos (by simp [this]), if_pos (by simp [haV])]
        exact Nat.succ_lt_succ (ih hn')

theorem filterNM_cut {cand V new : List Nat} (hnd : new.Nodup)
    (hdis : ∀ x ∈ new, x ∉ V) (hsub : ∀ x ∈ new, x ∈ cand) :
    filterNM cand (V ++ new) + new.length ≤ filterNM cand V := by
  induction new generalizing V with
  | nil => simp [filterNM]
  | cons n new ih =>
    have hrw : V ++ n :: new = (V ++ [n]) ++ new := by simp
    rw [hrw]
    have h1 : filterNM cand ((V ++ [n]) ++ new) + new.length ≤ filterNM cand (V ++ [n]) := by
      apply ih (List.nodup_cons.mp hnd).2
      · intro x hx
        intro hmem
        rcases List.mem_append.mp hmem with h' | h'
        · exact hdis x (List.mem_cons_of_mem _ hx) h'
        · simp at h'
          subst h'
          exact (List.nodup_cons.mp hnd).1 hx
      · exact fun x hx => hsub x (List.mem_cons_of_mem _ hx)
    have h2 : filterNM cand (V ++ [n]) < filterNM cand V :=
      filterNM_out_one (hsub n (List.mem_cons_self _ _)) (hdis n (List.mem_cons_self _ _))
    simp only [List.length_cons]
    omega

theorem bfsAux_main (g : Graph) :
    ∀ (fuel : Nat) (visited queue : List Nat),
      (∀ q ∈ queue, q ∈ visited) →
      queue.Nodup →
      (∀ u ∈ visited, u ∉ queue → ∀ w, Edge g u w → w ∈ visited) →
      filterNM (mentioned g) visited + queue.length ≤ fuel →
      (∀ q ∈ queue, q ∈ bfsAux g fuel visited queue) ∧
      (∀ x ∈ bfsAux g fuel visited queue, x ∈ visited → x ∈ queue) ∧
      (∀ x ∈ bfsAux g fuel visited queue, ∀ w, Edge g x w →
        w ∈ visited ∨ w ∈ bfsAux g fuel visited queue) ∧
      (bfsAux g fuel visited queue).Nodup := by
  intro fuel
  induction fuel with
  | zero =>
    intro visited queue h1 h2 h3 h4
    have hq : queue = [] := List.length_eq_zero.mp (by omega)
    subst hq
    simp [bfsAux]
  | succ fuel ih =>
    intro visited queue h1 h2 h3 h4
    cases queue with
    | nil => simp [bfsAux]
    | cons v qs =>
      have hstep : bfsAux g (fuel + 1) visited (v :: qs) =
          v :: bfsAux g fuel (visited ++ newNeighbors visited ((adjGet g.adj v).map Prod.fst))
            (qs ++ newNeighbors visited ((adjGet g.adj v).map Prod.fst)) := rfl
      set ns := (adjGet g.adj v).map Prod.fst with hns
      set new := newNeighbors visited ns with hnewdef
      have hnew_sub_ns : ∀ x ∈ new, x ∈ ns := fun x hx => (mem_newNeighbors.mp hx).1
      have hnew_nvis : ∀ x ∈ new, x ∉ visited := fun x hx => (mem_newNeighbors.mp hx).2
      have hnew_nd : new.Nodup := newNeighbors_nodup
      have hnew_ment : ∀ x ∈ new, x ∈ mentioned g :=
        fun x hx => nbr_mem_mentioned (hnew_sub_ns x hx)
      have hns_cover : ∀ w ∈ ns, w ∈ visited ++ new := by
        intro w hw
        by_cases hwv : w ∈ visited
        · exact List.mem_append.mpr (Or.inl hwv)
        · exact List.mem_append.mpr (Or.inr (mem_newNeighbors.mpr ⟨hw, hwv⟩))
      have hq1 : ∀ q ∈ qs ++ new, q ∈ visited ++ new := by
        intro q hq
        rcases List.mem_append.mp hq with h | h
        · exact List.mem_append.mpr (Or.inl (h1 q (List.mem_cons_of_mem _ h)))
        · exact List.mem_append.mpr (Or.inr h)
      have hq2 : (qs ++ new).Nodup := by
        refine List.Nodup.append ((List.nodup_cons.mp h2).2) hnew_nd ?_
        intro x hxq hxn
        exact hnew_nvis x hxn (h1 x (List.mem_cons_of_mem _ hxq))
      have hq3 : ∀ u ∈ visited ++ new, u ∉ qs ++ new → ∀ w, Edge g u w → w ∈ visited ++ new := by
        intro u hu hnq w hw
        rcases List.mem_append.mp hu with huv | hun
        · by_cases huveq : u = v
          · subst huveq
            exact hns_cover w (edge_iff_mem_map.mp hw)
          · have : u ∉ v :: qs := by
              intro hmem
              rcases List.mem_cons.mp hmem with h | h
              · exact huveq h
              · exact hnq (List.mem_append.mpr (Or.inl h))
            exact List.mem_append.mpr (Or.inl (h3 u huv this w hw))
        · exact absurd (List.mem_append.mpr (Or.inr hun)) hnq
      have hq4 : filterNM (mentioned g) (visited ++ new) + (qs ++ new).length ≤ fuel := by
        have hcut := filterNM_cut hnew_nd hnew_nvis hnew_ment
        simp only [List.length_append]
        simp only [List.length_cons] at h4
        omega
      obtain ⟨C1, C2, C3, C5⟩ := ih (visited ++ new) (qs ++ new) hq1 hq2 hq3 hq4
      rw [hstep]
      refine ⟨?_, ?_, ?_, ?_⟩
      · intro q hq
        rcases List.mem_cons.mp hq with rfl | hq'
        · exact List.mem_cons_self _ _
        · exact List.mem_cons_of_mem _ (C1 q (List.mem_append.mpr (Or.inl hq')))
      · intro x hx hvis
        rcases List.mem_cons.mp hx with rfl | hx'
        · exact List.mem_cons_self _ _
        · have := C2 x hx' (List.mem_append.mpr (Or.inl hvis))
          rcases List.mem_append.mp this with h | h
          · exact List.mem_cons_of_mem _ h
          · exact absurd hvis (hnew_nvis x h)
      · intro x hx w hw
        rcases List.mem_cons.mp hx with rfl | hx'
        · have hwns := edge_iff_mem_map.mp hw
          by_cases hwv : w ∈ visited
          · exact Or.inl hwv
          · have hwnew : w ∈ new := mem_newNeighbors.mpr ⟨hwns, hwv⟩
            exact Or.inr (List.mem_cons_of_mem _ (C1 w (List.mem_append.mpr (Or.inr hwnew))))
        · rcases C3 x hx' w hw with h | h
          · rcases List.mem_append.mp h with h' | h'
            · exact Or.inl h'
            · exact Or.inr (List.mem_cons_of_mem _ (C1 w (List.mem_append.mpr (Or.inr h'))))
          · exact Or.inr (List.mem_cons_of_mem _ h)
      · refine List.nodup_cons.mpr ⟨?_, C5⟩
        intro hvr
        have hvvis : v ∈ visited := h1 v (List.mem_cons_self _ _)
        have := C2 v hvr (List.mem_append.mpr (Or.inl hvvis))
        rcases List.mem_append.mp this with h | h
        · exact (List.nodup_cons.mp h2).1 h
        · exact hnew_nvis v h hvvis

theorem bfsAux_sound (g : Graph) (R : Nat → Prop)
    (hR : ∀ u w, R u → Edge g u w → R w) :
    ∀ (fuel : Nat) (visited queue : List Nat), (∀ q ∈ queue, R q) →
      ∀ x ∈ bfsAux g fuel visited queue, R x := by
  intro fuel
  induction fuel with
  | zero => intro visited queue _ x hx; simp [bfsAux] at hx
  | succ fuel ih =>
    intro visited queue hq x hx
    cases queue with
    | nil => simp [bfsAux] at hx
    | cons v qs =>
      have hstep : bfsAux g (fuel + 1) visited (v :: qs) =
          v :: bfsAux g fuel (visited ++ newNeighbors visited ((adjGet g.adj v).map Prod.fst))
            (qs ++ newNeighbors visited ((adjGet g.adj v).map Prod.fst)) := rfl
      rw [hstep] at hx
      rcases List.mem_cons.mp hx with rfl | hx'
      · exact hq x (List.mem_cons_self _ _)
      · refine ih _ _ ?_ x hx'
        intro q hqm
        rcases List.mem_append.mp hqm with h | h
        · exact hq q (List.mem_cons_of_mem _ h)
        · have hqns := (mem_newNeighbors.mp h).1
          exact hR v q (hq v (List.mem_cons_self _ _)) (edge_iff_mem_map.mpr hqns)

theorem bfsList_spec (g : Graph) (start : Nat) :
    (bfsList g start).head? = some start ∧ (bfsList g start).Nodup ∧
    (∀ x, x ∈ bfsList g start ↔ Reach g start x) := by
  have hmain := bfsAux_main g (bfsFuel g) [start] [start] (by simp) (by simp)
    (by intro u hu hnq w hw; exact absurd (by simpa using hu) (by simpa using hnq))
    (by
      unfold bfsFuel
      have hle : filterNM (mentioned g) [start] ≤ (mentioned g).length :=
        List.length_filter_le _ _
      simp only [List.length_singleton]
      omega)
  obtain ⟨C1, C2, C3, C5⟩ := hmain
  have hstart : start ∈ bfsList g start := C1 start (by simp)
  refine ⟨rfl, C5, fun x => ⟨?_, ?_⟩⟩
  · intro hx
    refine bfsAux_sound g (Reach g start) (fun u w hu he => hu.tail he) (bfsFuel g)
      [start] [start] ?_ x hx
    intro q hq
    have : q = start := by simpa using hq
    subst this
    exact Relation.ReflTransGen.refl
  · intro hr
    induction hr with
    | refl => exact hstart
    | tail hab hbc ih =>
      rcases C3 _ ih _ hbc with h | h
      · have hc : _ ∈ [start] := h
        rw [List.mem_singleton] at hc
        rw [hc]
        exact hstart
      · exact h

theorem visitFold_lockstep {rec : List Nat × List Nat → Nat → List Nat × List Nat}
    (hrec : ∀ st v, ∃ d, rec st v = (st.1 ++ d, st.2 ++ d)) :
    ∀ (ns : List Nat) (st : List Nat × List Nat),
      ∃ d, visitFold rec st ns = (st.1 ++ d, st.2 ++ d) := by
  intro ns
  induction ns with
  | nil => intro st; exact ⟨[], by simp [visitFold]⟩
  | cons n ns ih =>
    intro st
    show ∃ d, visitFold rec (if n ∈ st.1 then st else rec st n) ns = (st.1 ++ d, st.2 ++ d)
    by_cases hn : n ∈ st.1
    · rw [if_pos hn]; exact ih st
    · rw [if_neg hn]
      obtain ⟨d1, h1⟩ := hrec st n
      obtain ⟨d2, h2⟩ := ih (rec st n)
      refine ⟨d1 ++ d2, ?_⟩
      rw [h2, h1]
      simp

theorem dfsVisit_lockstep (g : Graph) :
    ∀ (fuel : Nat) (st : List Nat × List Nat) (v : Nat),
      ∃ d, dfsVisit g fuel st v = (st.1 ++ d, st.2 ++ d) := by
  intro fuel
  induction fuel with
  | zero => intro st v; exact ⟨[], by simp [dfsVisit]⟩
  | succ fuel ih =>
    intro st v
    show ∃ d, visitFold (dfsVisit g fuel) (st.1 ++ [v], st.2 ++ [v])
      ((adjGet g.adj v).map Prod.fst) = (st.1 ++ d, st.2 ++ d)
    obtain ⟨d, hd⟩ := visitFold_lockstep ih ((adjGet g.adj v).map Prod.fst)
      (st.1 ++ [v], st.2 ++ [v])
    refine ⟨[v] ++ d, ?_⟩
    rw [hd]
    simp

theorem dfsVisit_subset (g : Graph) (fuel : Nat) (st : List Nat × List Nat) (v : Nat) :
    ∀ x ∈ st.1, x ∈ (dfsVisit g fuel st v).1 := by
  obtain ⟨d, hd⟩ := dfsVisit_lockstep g fuel st v
  rw [hd]
  intro x hx
  exact List.mem_append.mpr (Or.inl hx)

theorem visitFold_subset {rec : List Nat × List Nat → Nat → List Nat × List Nat}
    (hrec : ∀ st v, ∃ d, rec st v = (st.1 ++ d, st.2 ++ d))
    (ns : List Nat) (st : List Nat × List Nat) :
    ∀ x ∈ st.1, x ∈ (visitFold rec st ns).1 := by
  obtain ⟨d, hd⟩ := visitFold_lockstep hrec ns st
  rw [hd]
  intro x hx
  exact List.mem_append.mpr (Or.inl hx)

theorem dfsVisit_sound (g : Graph) (R : Nat → Prop)
    (hR : ∀ u w, R u → Edge g u w → R w) :
    ∀ (fuel : Nat) (st : List Nat × List Nat) (v : Nat),
      R v → (∀ x ∈ st.1, R x) → ∀ x ∈ (dfsVisit g fuel st v).1, R x := by
  intro fuel
  induction fuel with
  | zero => intro st v _ hst x hx; exact hst x hx
  | succ fuel ih =>
    intro st v hv hst
    show ∀ x ∈ (visitFold (dfsVisit g fuel) (st.1 ++ [v], st.2 ++ [v])
      ((adjGet g.adj v).map Prod.fst)).1, R x
    have hst1 : ∀ x ∈ st.1 ++ [v], R x := by
      intro x hx
      rcases List.mem_append.mp hx with h | h
      · exact hst x h
      · simp at h; subst h; exact hv
    have hns : ∀ n ∈ (adjGet g.adj v).map Prod.fst, R n :=
      fun n hn => hR v n hv (edge_iff_mem_map.mpr hn)
    -- inner induction over the neighbor list
    have hgen : ∀ (ns : List Nat) (stc : List Nat × List Nat),
        (∀ n ∈ ns, R n) → (∀ x ∈ stc.1, R x) → ∀ x ∈ (visitFold (dfsVisit g fuel) stc ns).1, R x := by
      intro ns
      induction ns with
      | nil => intro stc _ hstc x hx; exact hstc x (by simpa [visitFold] using hx)
      | cons n ns ihns =>
        intro stc hnsR hstc
        show ∀ x ∈ (visitFold (dfsVisit g fuel) (if n ∈ stc.1 then stc else dfsVisit g fuel stc n) ns).1, R x
        by_cases hn : n ∈ stc.1
        · rw [if_pos hn]
          exact ihns stc (fun m hm => hnsR m (List.mem_cons_of_mem _ hm)) hstc
        · rw [if_neg hn]
          refine ihns _ (fun m hm => hnsR m (List.mem_cons_of_mem _ hm)) ?_
          exact ih stc n (hnsR n (List.mem_cons_self _ _)) hstc
    exact hgen _ _ hns hst1

theorem dfsVisit_nodup (g : Graph) :
    ∀ (fuel : Nat) (st : List Nat × List Nat) (v : Nat),
      st.1.Nodup → v ∉ st.1 → (dfsVisit g fuel st v).1.Nodup := by
  intro fuel
  induction fuel with
  | zero => intro st v hnd _; exact hnd
  | succ fuel ih =>
    intro st v hnd hnv
    show (visitFold (dfsVisit g fuel) (st.1 ++ [v], st.2 ++ [v])
      ((adjGet g.adj v).map Prod.fst)).1.Nodup
    have hnd1 : (st.1 ++ [v]).Nodup := by
      refine List.Nodup.append hnd (by simp) ?_
      intro x hx hxv
      simp at hxv
      subst hxv
      exact hnv hx
    have hgen : ∀ (ns : List Nat) (stc : List Nat × List Nat),
        stc.1.Nodup → (visitFold (dfsVisit g fuel) stc ns).1.Nodup := by
      intro ns
      induction ns with
      | nil => intro stc h; simpa [visitFold] using h
      | cons n ns ihns =>
        intro stc hstc
        show (visitFold (dfsVisit g fuel) (if n ∈ stc.1 then stc else dfsVisit g fuel stc n) ns).1.Nodup
        by_cases hn : n ∈ stc.1
        · rw [if_pos hn]; exact ihns stc hstc
        · rw [if_neg hn]; exact ihns _ (ih stc n hstc hn)
    exact hgen _ _ hnd1

/-- Vertex `x` has all its successors inside `S`. -/
def ClosedIn (g : Graph) (S : List Nat) (x : Nat) : Prop := ∀ w, Edge g x w → w ∈ S

theorem dfsVisit_closed (g : Graph) (cand : List Nat)
    (hcand : ∀ u x, Edge g u x → x ∈ cand) :
    ∀ (fuel : Nat) (st : List Nat × List Nat) (v : Nat) (V0 : List Nat),
      v ∈ cand → v ∉ st.1 → filterNM cand st.1 + 1 ≤ fuel →
      (∀ x ∈ st.1, x ∈ V0 ∨ ClosedIn g st.1 x) →
      v ∈ (dfsVisit g fuel st v).1 ∧
      (∀ x ∈ (dfsVisit g fuel st v).1, x ∈ V0 ∨ ClosedIn g ((dfsVisit g fuel st v).1) x) := by
  intro fuel
  induction fuel with
  | zero =>
    intro st v V0 hv hnv hfuel H
    omega
  | succ fuel ih =>
    intro st v V0 hv hnv hfuel H
    have hstep : dfsVisit g (fuel + 1) st v =
        visitFold (dfsVisit g fuel) (st.1 ++ [v], st.2 ++ [v])
          ((adjGet g.adj v).map Prod.fst) := rfl
    have hlock := fun st v => dfsVisit_lockstep g fuel st v
    -- the inner induction over the pending neighbor list of v
    have hinner : ∀ (ns : List Nat) (stc : List Nat × List Nat),
        (∀ n ∈ ns, n ∈ cand) →
        v ∈ stc.1 →
        filterNM cand stc.1 + 1 ≤ fuel →
        (∀ x ∈ stc.1, x ∈ V0 ∨ ClosedIn g stc.1 x ∨
          (x = v ∧ ∀ w, Edge g v w → w ∈ stc.1 ∨ w ∈ ns)) →
        (∀ x ∈ (visitFold (dfsVisit g fuel) stc ns).1,
          x ∈ V0 ∨ ClosedIn g ((visitFold (dfsVisit g fuel) stc ns).1) x ∨
          (x = v ∧ ∀ w, Edge g v w → w ∈ (visitFold (dfsVisit g fuel) stc ns).1)) := by
      intro ns
      induction ns with
      | nil =>
        intro stc hns hvm hfc H' x hx
        have hres : visitFold (dfsVisit g fuel) stc [] = stc := rfl
        rw [hres] at hx ⊢
        rcases H' x hx with h | h | ⟨rfl, hp⟩
        · exact Or.inl h
        · exact Or.inr (Or.inl h)
        · refine Or.inr (Or.inr ⟨rfl, fun w hw => ?_⟩)
          rcases hp w hw with h | h
          · exact h
          · simp at h
      | cons n ns' ihns =>
        intro stc hns hvm hfc H'
        have hrw : visitFold (dfsVisit g fuel) stc (n :: ns') =
            visitFold (dfsVisit g fuel) (if n ∈ stc.1 then stc else dfsVisit g fuel stc n) ns' :=
          rfl
        rw [hrw]
        by_cases hn : n ∈ stc.1
        · rw [if_pos hn]
          refine ihns stc (fun m hm => hns m (List.mem_cons_of_mem _ hm)) hvm hfc ?_
          intro x hx
          rcases H' x hx with h | h | ⟨rfl, hp⟩
          · exact Or.inl h
          · exact Or.inr (Or.inl h)
          · refine Or.inr (Or.inr ⟨rfl, fun w hw => ?_⟩)
            rcases hp w hw with h | h
            · exact Or.inl h
            · rcases List.mem_cons.mp h with rfl | h'
              · exact Or.inl hn
              · exact Or.inr h'
        · rw [if_neg hn]
          have H3 : ∀ x ∈ stc.1, x ∈ v :: V0 ∨ ClosedIn g stc.1 x := by
            intro x hx
            rcases H' x hx with h | h | ⟨rfl, hp⟩
            · exact Or.inl (List.mem_cons_of_mem _ h)
            · exact Or.inr h
            · exact Or.inl (List.mem_cons_self _ _)
          obtain ⟨hnmem, hcl⟩ := ih stc n (v :: V0) (hns n (List.mem_cons_self _ _)) hn hfc H3
          have hsub : ∀ x ∈ stc.1, x ∈ (dfsVisit g fuel stc n).1 :=
            dfsVisit_subset g fuel stc n
          have hmono : filterNM cand (dfsVisit g fuel stc n).1 ≤ filterNM cand stc.1 :=
            filterNM_mono hsub
          refine ihns (dfsVisit g fuel stc n)
            (fun m hm => hns m (List.mem_cons_of_mem _ hm)) (hsub v hvm) (by omega) ?_
          intro x hx
          rcases hcl x hx with h | h
          · rcases List.mem_cons.mp h with rfl | h'
            · -- x = v: restore the pending-neighbor promise from H'
              rcases H' x hvm with h2 | h2 | ⟨_, hp⟩
              · exact Or.inl h2
              · exact Or.inr (Or.inl (fun w hw => hsub w (h2 w hw)))
              · refine Or.inr (Or.inr ⟨rfl, fun w hw => ?_⟩)
                rcases hp w hw with h3 | h3
                · exact Or.inl (hsub w h3)
                · rcases List.mem_cons.mp h3 with rfl | h4
                  · exact Or.inl hnmem
                  · exact Or.inr h4
            · exact Or.inl h'
          · exact Or.inr (Or.inl h)
    -- assemble the outer conclusion
    have hns_cand : ∀ n ∈ (adjGet g.adj v).map Prod.fst, n ∈ cand :=
      fun n hn => hcand v n (edge_iff_mem_map.mpr hn)
    have hvm1 : v ∈ st.1 ++ [v] := List.mem_append.mpr (Or.inr (by simp))
    have hfc1 : filterNM cand (st.1 ++ [v]) + 1 ≤ fuel := by
      have := @filterNM_out_one cand st.1 v hv hnv
      omega
    have H'1 : ∀ x ∈ st.1 ++ [v], x ∈ V0 ∨ ClosedIn g (st.1 ++ [v]) x ∨
        (x = v ∧ ∀ w, Edge g v w → w ∈ st.1 ++ [v] ∨ w ∈ (adjGet g.adj v).map Prod.fst) := by
      intro x hx
      rcases List.mem_append.mp hx with h | h
      · rcases H x h with h2 | h2
        · exact Or.inl h2
        · exact Or.inr (Or.inl (fun w hw => List.mem_append.mpr (Or.inl (h2 w hw))))
      · simp at h
        subst h
        exact Or.inr (Or.inr ⟨rfl, fun w hw => Or.inr (edge_iff_mem_map.mp hw)⟩)
    have hfin := hinner ((adjGet g.adj v).map Prod.fst) (st.1 ++ [v], st.2 ++ [v])
      hns_cand hvm1 hfc1 H'1
    rw [hstep]
    constructor
    · exact visitFold_subset hlock _ _ v hvm1
    · intro x hx
      rcases hfin x hx with h | h | ⟨rfl, hp⟩
      · exact Or.inl h
      · exact Or.inr h
      · exact Or.inr hp

theorem dfsList_spec (g : Graph) (start : Nat) :
    (dfsList g start).head? = some start ∧ (dfsList g start).Nodup ∧
    (∀ x, x ∈ dfsList g start ↔ Reach g start x) := by
  obtain ⟨d, hd⟩ := dfsVisit_lockstep g (dfsFuel g) ([], []) start
  have hdl : dfsList g start = (dfsVisit g (dfsFuel g) ([], []) start).1 := by
    unfold dfsList
    rw [hd]
  have hcand : ∀ u x, Edge g u x → x ∈ start :: mentioned g :=
    fun u x he => List.mem_cons_of_mem _ (nbr_mem_mentioned (edge_iff_mem_map.mp he))
  have hfuel : filterNM (start :: mentioned g) [] + 1 ≤ dfsFuel g := by
    unfold dfsFuel filterNM
    simp
  obtain ⟨hstart, hclosed⟩ := dfsVisit_closed g (start :: mentioned g) hcand (dfsFuel g)
    ([], []) start [] (List.mem_cons_self _ _) (by simp) hfuel (by simp)
  refine ⟨?_, ?_, ?_⟩
  · obtain ⟨d', hd'⟩ := visitFold_lockstep
      (fun st v => dfsVisit_lockstep g ((mentioned g).length + 1) st v)
      ((adjGet g.adj start).map Prod.fst) ([start], [start])
    have hstep : dfsList g start =
        (visitFold (dfsVisit g ((mentioned g).length + 1)) ([start], [start])
          ((adjGet g.adj start).map Prod.fst)).2 := rfl
    rw [hstep, hd']
    rfl
  · rw [hdl]
    exact dfsVisit_nodup g (dfsFuel g) ([], []) start (by simp) (by simp)
  · intro x
    rw [hdl]
    constructor
    · intro hx
      refine dfsVisit_sound g (Reach g start) (fun u w hu he => hu.tail he) (dfsFuel g)
        ([], []) start Relation.ReflTransGen.refl (by simp) x hx
    · intro hr
      induction hr with
      | refl => exact hstart
      | tail hab hbc ih =>
        rcases hclosed _ ih with h | h
        · simp at h
        · exact h _ hbc

/-- Claim C6: `bfs(start)` and `dfs(start)` each return a sequence that contains
every vertex reachable from `start` exactly once, contains no other vertex, and
has `start` as its first element. -/
theorem claim_C6 (g : Graph) (start : Nat) :
    ((bfsList g start).head? = some start ∧ (bfsList g start).Nodup ∧
      (∀ x, x ∈ bfsList g start ↔ Reach g start x)) ∧
    ((dfsList g start).head? = some start ∧ (dfsList g start).Nodup ∧
      (∀ x, x ∈ dfsList g start ↔ Reach g start x)) :=
  ⟨bfsList_spec g start, dfsList_spec g start⟩

/-! Claim C5: shortest_path_bfs.  Path lemmas first. -/

theorem isPathW_length_pos {g : Graph} {a b : Nat} {p : List Nat} {W : Int}
    (h : IsPathW g a b p W) : 1 ≤ p.length := by
  cases h <;> simp

theorem isPathW_snoc {g : Graph} {a b c : Nat} {p : List Nat} {W w : Int}
    (h : IsPathW g a b p W) (he : (c, w) ∈ adjGet g.adj b) :
    IsPathW g a c (p ++ [c]) (W + w) := by
  induction h with
  | single v => simpa using IsPathW.cons v c c w [c] 0 he (IsPathW.single c)
  | cons u n v w' p' W' hmem hsub ih =>
    have := IsPathW.cons u n c w' (p' ++ [c]) (W' + w) hmem (ih he)
    simpa [Int.add_assoc] using this

theorem isPath_snoc {g : Graph} {a b c : Nat} {p : List Nat}
    (h : IsPath g a b p) (he : Edge g b c) : IsPath g a c (p ++ [c]) := by
  obtain ⟨W, hW⟩ := h
  obtain ⟨w, hw⟩ := he
  exact ⟨W + w, isPathW_snoc hW hw⟩

theorem reach_iff_isPath {g : Graph} {u v : Nat} : Reach g u v ↔ ∃ p, IsPath g u v p := by
  constructor
  · intro h
    induction h with
    | refl => exact ⟨[u], 0, IsPathW.single u⟩
    | tail hab hbc ih =>
      obtain ⟨p, hp⟩ := ih
      exact ⟨_, isPath_snoc hp hbc⟩
  · rintro ⟨p, W, hp⟩
    induction hp with
    | single v => exact Relation.ReflTransGen.refl
    | cons u n v w p' W' hmem hsub ih =>
      exact Relation.ReflTransGen.head ⟨w, hmem⟩ ih

theorem isPathW_snoc_cases {g : Graph} {a b : Nat} {p : List Nat} {W : Int}
    (h : IsPathW g a b p W) :
    (p = [a] ∧ a = b) ∨
    ∃ y q, p = q ++ [b] ∧ IsPath g a y q ∧ Edge g y b := by
  induction h with
  | single v => exact Or.inl ⟨rfl, rfl⟩
  | cons u n v w p' W' hmem hsub ih =>
    rcases ih with ⟨hp', hnv⟩ | ⟨y, q, hq, hpath, hedge⟩
    · subst hp'
      subst hnv
      exact Or.inr ⟨u, [u], rfl, ⟨0, IsPathW.single u⟩, ⟨w, hmem⟩⟩
    · subst hq
      refine Or.inr ⟨y, u :: q, rfl, ?_, hedge⟩
      obtain ⟨Wq, hWq⟩ := hpath
      exact ⟨w + Wq, IsPathW.cons u n y w q Wq hmem hWq⟩

theorem isPathW_length_one {g : Graph} {a b : Nat} {p : List Nat} {W : Int}
    (h : IsPathW g a b p W) (hl : p.length = 1) : a = b := by
  cases h with
  | single v => rfl
  | cons u n v w p' W' hmem hsub =>
    have hpos := isPathW_length_pos hsub
    simp only [List.length_cons] at hl
    omega

theorem spInner_spec (endv : Nat) (path : List Nat) :
    ∀ (ns visited : List Nat) (acc : List (Nat × List Nat)),
      (∃ found, spInner endv path visited acc ns = Sum.inl found ∧
        endv ∈ ns ∧ found = path ++ [endv]) ∨
      (∃ v' a', spInner endv path visited acc ns = Sum.inr (v', a') ∧
        (∀ n ∈ ns, n ≠ endv) ∧
        ∃ newL : List Nat, v' = visited ++ newL ∧
          a' = acc ++ newL.map (fun n => (n, path ++ [n])) ∧
          newL.Nodup ∧ (∀ n ∈ newL, n ∈ ns ∧ n ∉ visited) ∧
          (∀ n ∈ ns, n ∈ visited ++ newL)) := by
  intro ns
  induction ns with
  | nil =>
    intro visited acc
    refine Or.inr ⟨visited, acc, rfl, by simp, [], by simp, by simp, by simp, by simp, by simp⟩
  | cons n ns ih =>
    intro visited acc
    by_cases hne : n = endv
    · subst hne
      exact Or.inl ⟨path ++ [n], by simp [spInner], List.mem_cons_self _ _, rfl⟩
    · by_cases hnv : n ∈ visited
      · have hstep : spInner endv path visited acc (n :: ns) = spInner endv path visited acc ns := by
          simp [spInner, hne, hnv]
        rcases ih visited acc with ⟨found, heq, hin, hf⟩ | ⟨v', a', heq, hna, newL, hv, ha, hnd, hmem, hcov⟩
        · exact Or.inl ⟨found, by rw [hstep, heq], List.mem_cons_of_mem _ hin, hf⟩
        · refine Or.inr ⟨v', a', by rw [hstep, heq], ?_, newL, hv, ha, hnd, ?_, ?_⟩
          · intro m hm
            rcases List.mem_cons.mp hm with rfl | hm'
            · exact hne
            · exact hna m hm'
          · exact fun m hm => ⟨List.mem_cons_of_mem _ (hmem m hm).1, (hmem m hm).2⟩
          · intro m hm
            rcases List.mem_cons.mp hm with rfl | hm'
            · exact List.mem_append.mpr (Or.inl hnv)
            · exact hcov m hm'
      · have hstep : spInner endv path visited acc (n :: ns) =
            spInner endv path (visited ++ [n]) (acc ++ [(n, path ++ [n])]) ns := by
          simp [spInner, hne, hnv]
        rcases ih (visited ++ [n]) (acc ++ [(n, path ++ [n])]) with
          ⟨found, heq, hin, hf⟩ | ⟨v', a', heq, hna, newL, hv, ha, hnd, hmem, hcov⟩
        · exact Or.inl ⟨found, by rw [hstep, heq], List.mem_cons_of_mem _ hin, hf⟩
        · refine Or.inr ⟨v', a', by rw [hstep, heq], ?_, n :: newL, ?_, ?_, ?_, ?_, ?_⟩
          · intro m hm
            rcases List.mem_cons.mp hm with rfl | hm'
            · exact hne
            · exact hna m hm'
          · rw [hv]; simp
          · rw [ha]; simp
          · refine List.nodup_cons.mpr ⟨fun hmemn => ?_, hnd⟩
            exact (hmem n hmemn).2 (List.mem_append.mpr (Or.inr (by simp)))
          · intro m hm
            rcases List.mem_cons.mp hm with rfl | hm'
            · exact ⟨List.mem_cons_self _ _, hnv⟩
            · refine ⟨List.mem_cons_of_mem _ (hmem m hm').1, fun hmv => ?_⟩
              exact (hmem m hm').2 (List.mem_append.mpr (Or.inl hmv))
          · intro m hm
            rcases List.mem_cons.mp hm with rfl | hm'
            · exact List.mem_append.mpr (Or.inr (List.mem_cons_self _ _))
            · have := hcov m hm'
              rcases List.mem_append.mp this with h' | h'
              · rcases List.mem_append.mp h' with h'' | h''
                · exact List.mem_append.mpr (Or.inl h'')
                · simp at h''
                  subst h''
                  exact List.mem_append.mpr (Or.inr (List.mem_cons_self _ _))
              · exact List.mem_append.mpr (Or.inr (List.mem_cons_of_mem _ h'))

theorem spAux_sound (g : Graph) (start endv : Nat) :
    ∀ (fuel : Nat) (visited : List Nat) (queue : List (Nat × List Nat)),
      (∀ e ∈ queue, IsPath g start e.1 e.2) →
      ∀ res, (spAux g endv fuel visited queue).1 = some res → IsPath g start endv res := by
  intro fuel
  induction fuel with
  | zero => intro visited queue _ res h; simp [spAux] at h
  | succ fuel ih =>
    intro visited queue hq res hres
    cases queue with
    | nil => simp [spAux] at hres
    | cons e qs =>
      obtain ⟨v, path⟩ := e
      rcases spInner_spec endv path ((adjGet g.adj v).map Prod.fst) visited []
        with ⟨found, heq, hin, hf⟩ | ⟨v', a', heq, hna, newL, hv, ha, hnd, hmem, hcov⟩
      · have hstep : (spAux g endv (fuel + 1) visited ((v, path) :: qs)).1 = some found := by
          show (match spInner endv path visited [] ((adjGet g.adj v).map Prod.fst) with
            | Sum.inl found => (some found, [v])
            | Sum.inr (visited', newItems) =>
              let r := spAux g endv fuel visited' (qs ++ newItems)
              (r.1, v :: r.2)).1 = some found
          rw [heq]
        rw [hstep] at hres
        injection hres with hres'
        subst hres'
        subst hf
        have hpv : IsPath g start v path := hq (v, path) (List.mem_cons_self _ _)
        exact isPath_snoc hpv (edge_iff_mem_map.mpr hin)
      · have hstep : (spAux g endv (fuel + 1) visited ((v, path) :: qs)).1 =
            (spAux g endv fuel v' (qs ++ a')).1 := by
          show (match spInner endv path visited [] ((adjGet g.adj v).map Prod.fst) with
            | Sum.inl found => (some found, [v])
            | Sum.inr (visited', newItems) =>
              let r := spAux g endv fuel visited' (qs ++ newItems)
              (r.1, v :: r.2)).1 = _
          rw [heq]
        rw [hstep] at hres
        refine ih v' (qs ++ a') ?_ res hres
        intro e he
        rcases List.mem_append.mp he with h | h
        · exact hq e (List.mem_cons_of_mem _ h)
        · rw [ha] at h
          simp at h
          obtain ⟨n, hn, rfl⟩ := h
          have hpv : IsPath g start v path := hq (v, path) (List.mem_cons_self _ _)
          exact isPath_snoc hpv (edge_iff_mem_map.mpr (hmem n hn).1)

theorem newItems_pairwise (p : List Nat) (l : List Nat) :
    List.Pairwise (fun a b : Nat × List Nat => a.2.length ≤ b.2.length)
      (l.map (fun n => (n, p ++ [n]))) := by
  induction l with
  | nil => simp
  | cons n l ih =>
    refine List.Pairwise.cons ?_ ih
    intro b hb
    simp at hb
    obtain ⟨m, hm, rfl⟩ := hb
    simp

theorem visited_closed_of_empty_queue (g : Graph) {start endv : Nat}
    {visited popped : List Nat}
    (hJ3 : ∀ x ∈ visited, x ∈ popped)
    (hJ4 : ∀ y ∈ popped, ∀ w, Edge g y w → w ≠ endv ∧ w ∈ visited)
    (hJ5 : endv ∉ visited)
    (hstartv : start ∈ visited)
    (hreach : ∃ q, IsPath g start endv q) : False := by
  obtain ⟨q, W, hq⟩ := hreach
  have hmem : ∀ (a b : Nat) (p : List Nat) (W' : Int), IsPathW g a b p W' →
      a ∈ visited → b ∈ visited := by
    intro a b p W' hp
    induction hp with
    | single v => exact id
    | cons u n v w p' W'' hmemn hsub ih =>
      intro hu
      exact ih ((hJ4 u (hJ3 u hu) n ⟨w, hmemn⟩).2)
  exact hJ5 (hmem start endv q W hq hstartv)

theorem spAux_main (g : Graph) (start endv : Nat) (hreach : ∃ q, IsPath g start endv q) :
    ∀ (fuel : Nat) (visited : List Nat) (queue : List (Nat × List Nat))
      (popped : List Nat) (L : Nat),
      List.Pairwise (fun a b => a.2.length ≤ b.2.length) queue →
      (∀ e ∈ queue, L ≤ e.2.length) →
      (∀ e ∈ queue, e.2.length ≤ L + 1) →
      (∀ x, x ∉ visited → ∀ q, IsPath g start x q → L + 1 ≤ q.length) →
      (∀ e ∈ queue, IsPath g start e.1 e.2) →
      (∀ e ∈ queue, ∀ q, IsPath g start e.1 q → e.2.length ≤ q.length) →
      (∀ x ∈ visited, x ∈ popped ∨ ∃ p, (x, p) ∈ queue) →
      (∀ y ∈ popped, ∀ w, Edge g y w → w ≠ endv ∧ w ∈ visited) →
      endv ∉ visited →
      start ∈ visited →
      filterNM (mentioned g) visited + queue.length ≤ fuel →
      ∃ res, (spAux g endv fuel visited queue).1 = some res ∧
        IsPath g start endv res ∧ ∀ q, IsPath g start endv q → res.length ≤ q.length := by
  intro fuel
  induction fuel with
  | zero =>
    intro visited queue popped L hpair hLlow hLhigh hIC hJ1 hJd hJ3 hJ4 hJ5 hstartv hfuel
    have hq0 : queue = [] := by
      cases queue with
      | nil => rfl
      | cons e qs =>
        simp only [List.length_cons] at hfuel
        omega
    subst hq0
    exact (visited_closed_of_empty_queue g
      (fun x hx => (hJ3 x hx).elim id (fun ⟨p, hp⟩ => absurd hp (List.not_mem_nil _)))
      hJ4 hJ5 hstartv hreach).elim
  | succ fuel ih =>
    intro visited queue popped L hpair hLlow hLhigh hIC hJ1 hJd hJ3 hJ4 hJ5 hstartv hfuel
    cases queue with
    | nil =>
      exact (visited_closed_of_empty_queue g
        (fun x hx => (hJ3 x hx).elim id (fun ⟨p, hp⟩ => absurd hp (List.not_mem_nil _)))
        hJ4 hJ5 hstartv hreach).elim
    | cons e qs =>
      obtain ⟨v, p⟩ := e
      have hpqs := List.pairwise_cons.mp hpair
      have hLlow' : ∀ e ∈ qs, p.length ≤ e.2.length := fun e he => hpqs.1 e he
      have hLcase : L ≤ p.length ∧ p.length ≤ L + 1 :=
        ⟨hLlow (v, p) (List.mem_cons_self _ _), hLhigh (v, p) (List.mem_cons_self _ _)⟩
      -- strengthened unvisited bound at the new layer p.length
      have hIC' : ∀ x, x ∉ visited → ∀ q, IsPath g start x q → p.length + 1 ≤ q.length := by
        rcases Nat.lt_or_ge p.length (L + 1) with hc | hc
        · have : p.length = L := by omega
          rw [this]
          exact hIC
        · have hLp : p.length = L + 1 := by omega
          intro x hxv q hq
          by_contra hlt
          have hq1 : L + 1 ≤ q.length := hIC x hxv q hq
          have hqlen : q.length = L + 1 := by omega
          obtain ⟨W, hqW⟩ := hq
          rcases isPathW_snoc_cases hqW with ⟨hqs, rfl⟩ | ⟨y, q', rfl, hq', hedge⟩
          · rw [hqs] at hqlen
            exact hxv hstartv
          · have hq'len : q'.length = L := by
              rw [List.length_append] at hqlen
              simp at hqlen
              omega
            have hyv : y ∈ visited := by
              by_contra hyv
              have := hIC y hyv q' hq'
              omega
            rcases hJ3 y hyv with hp | ⟨py, hpy⟩
            · exact hxv (hJ4 y hp x hedge).2
            · have h1 := hJd (y, py) hpy q' hq'
              have h2 : L + 1 ≤ py.length := by
                rcases List.mem_cons.mp hpy with heq | hmemqs
                · injection heq with h3 h4
                  rw [h4]
                  omega
                · have := hLlow' (y, py) hmemqs
                  simp at this
                  omega
              simp at h1
              omega
      rcases spInner_spec endv p ((adjGet g.adj v).map Prod.fst) visited []
        with ⟨found, heq, hin, hf⟩ | ⟨v', a', heq, hna, newL, hv', ha', hnd, hmem, hcov⟩
      · -- found: the head's path extended by endv
        refine ⟨found, ?_, ?_, ?_⟩
        · show (match spInner endv p visited [] ((adjGet g.adj v).map Prod.fst) with
            | Sum.inl found => (some found, [v])
            | Sum.inr (visited', newItems) =>
              let r := spAux g endv fuel visited' (qs ++ newItems)
              (r.1, v :: r.2)).1 = some found
          rw [heq]
        · subst hf
          exact isPath_snoc (hJ1 (v, p) (List.mem_cons_self _ _)) (edge_iff_mem_map.mpr hin)
        · intro q hq
          subst hf
          have := hIC' endv hJ5 q hq
          simp
          omega
      · -- no find among v's neighbors: recurse
        have hstep : (spAux g endv (fuel + 1) visited ((v, p) :: qs)).1 =
            (spAux g endv fuel v' (qs ++ a')).1 := by
          show (match spInner endv p visited [] ((adjGet g.adj v).map Prod.fst) with
            | Sum.inl found => (some found, [v])
            | Sum.inr (visited', newItems) =>
              let r := spAux g endv fuel visited' (qs ++ newItems)
              (r.1, v :: r.2)).1 = _
          rw [heq]
        have hnewlen : ∀ e ∈ a', e.2.length = p.length + 1 := by
          intro e he
          rw [ha'] at he
          simp at he
          obtain ⟨n, hn, rfl⟩ := he
          simp
        have hql : ∀ e ∈ qs ++ a', IsPath g start e.1 e.2 := by
          intro e he
          rcases List.mem_append.mp he with h | h
          · exact hJ1 e (List.mem_cons_of_mem _ h)
          · rw [ha'] at h
            simp at h
            obtain ⟨n, hn, rfl⟩ := h
            exact isPath_snoc (hJ1 (v, p) (List.mem_cons_self _ _))
              (edge_iff_mem_map.mpr (hmem n hn).1)
        have harg_pair : List.Pairwise (fun a b : Nat × List Nat => a.2.length ≤ b.2.length)
            (qs ++ a') := by
          rw [ha']
          simp only [List.nil_append]
          refine List.pairwise_append.mpr ⟨hpqs.2, newItems_pairwise p newL, ?_⟩
          intro a hq b hb
          simp only [List.mem_map] at hb
          obtain ⟨n, hn, rfl⟩ := hb
          have h1 := hLhigh a (List.mem_cons_of_mem _ hq)
          have h2 := hLcase.1
          simp only [List.length_append, List.length_singleton]
          omega
        have harg_low : ∀ e ∈ qs ++ a', p.length ≤ e.2.length := by
          intro e he
          rcases List.mem_append.mp he with h | h
          · exact hLlow' e h
          · rw [hnewlen e h]
            omega
        have harg_high : ∀ e ∈ qs ++ a', e.2.length ≤ p.length + 1 := by
          intro e he
          rcases List.mem_append.mp he with h | h
          · have h1 := hLhigh e (List.mem_cons_of_mem _ h)
            have h2 := hLcase.1
            omega
          · rw [hnewlen e h]
        have harg_ic : ∀ x, x ∉ v' → ∀ q, IsPath g start x q → p.length + 1 ≤ q.length := by
          intro x hx q hq
          refine hIC' x (fun hxv => hx ?_) q hq
          rw [hv']
          exact List.mem_append.mpr (Or.inl hxv)
        have harg_jd : ∀ e ∈ qs ++ a', ∀ q, IsPath g start e.1 q → e.2.length ≤ q.length := by
          intro e he q hq
          rcases List.mem_append.mp he with h | h
          · exact hJd e (List.mem_cons_of_mem _ h) q hq
          · rw [hnewlen e h]
            have hmm : e.1 ∉ visited := by
              rw [ha'] at h
              simp only [List.nil_append, List.mem_map] at h
              obtain ⟨n, hn, hne⟩ := h
              rw [← hne]
              exact (hmem n hn).2
            exact hIC' e.1 hmm q hq
        have harg_j3 : ∀ x ∈ v', x ∈ popped ++ [v] ∨ ∃ px, (x, px) ∈ qs ++ a' := by
          intro x hx
          rw [hv'] at hx
          rcases List.mem_append.mp hx with h | h
          · rcases hJ3 x h with h' | ⟨px, hpx⟩
            · exact Or.inl (List.mem_append.mpr (Or.inl h'))
            · rcases List.mem_cons.mp hpx with heq | hmemqs
              · injection heq with h1 h2
                subst h1
                exact Or.inl (List.mem_append.mpr (Or.inr (by simp)))
              · exact Or.inr ⟨px, List.mem_append.mpr (Or.inl hmemqs)⟩
          · refine Or.inr ⟨p ++ [x], List.mem_append.mpr (Or.inr ?_)⟩
            rw [ha']
            simpa using h
        have harg_j4 : ∀ y ∈ popped ++ [v], ∀ w, Edge g y w → w ≠ endv ∧ w ∈ v' := by
          intro y hy w hw
          rcases List.mem_append.mp hy with h | h
          · have := hJ4 y h w hw
            exact ⟨this.1, by rw [hv']; exact List.mem_append.mpr (Or.inl this.2)⟩
          · simp at h
            subst h
            have hwns := edge_iff_mem_map.mp hw
            refine ⟨hna w hwns, ?_⟩
            rw [hv']
            exact hcov w hwns
        have harg_j5 : endv ∉ v' := by
          rw [hv']
          intro hmm
          rcases List.mem_append.mp hmm with h | h
          · exact hJ5 h
          · exact hna endv (hmem endv h).1 rfl
        have harg_sv : start ∈ v' := by
          rw [hv']
          exact List.mem_append.mpr (Or.inl hstartv)
        have harg_fl : filterNM (mentioned g) v' + (qs ++ a').length ≤ fuel := by
          rw [hv', ha']
          have hsubm : ∀ n ∈ newL, n ∈ mentioned g :=
            fun n hn => nbr_mem_mentioned (hmem n hn).1
          have hcut := filterNM_cut hnd (fun n hn => (hmem n hn).2) hsubm
          simp only [List.length_append, List.length_map, List.nil_append]
          simp only [List.length_cons] at hfuel
          omega
        obtain ⟨res, hres, hpath, hmin⟩ := ih v' (qs ++ a') (popped ++ [v]) p.length
          harg_pair harg_low harg_high harg_ic hql harg_jd harg_j3 harg_j4 harg_j5
          harg_sv harg_fl
        exact ⟨res, by rw [hstep]; exact hres, hpath, hmin⟩

/-- Claim C5: `shortest_path_bfs(start, end)` returns `[start]` when the two
endpoints coincide; otherwise a minimum-edge-count path from `start` to `end`
when `end` is reachable, and the explicit no-path value `None` when it is not. -/
theorem claim_C5 (g : Graph) (start endv : Nat) :
    (start = endv → shortest_path_bfs g start endv = some [start]) ∧
    (start ≠ endv → Reach g start endv →
      ∃ res, shortest_path_bfs g start endv = some res ∧ IsPath g start endv res ∧
        ∀ q, IsPath g start endv q → res.length ≤ q.length) ∧
    (start ≠ endv → ¬ Reach g start endv → shortest_path_bfs g start endv = none) := by
  refine ⟨?_, ?_, ?_⟩
  · intro h
    simp [shortest_path_bfs, h]
  · intro hne hreach
    have hreach' : ∃ q, IsPath g start endv q := reach_iff_isPath.mp hreach
    have hIC0 : ∀ x, x ∉ [start] → ∀ q, IsPath g start x q → 1 + 1 ≤ q.length := by
      intro x hx q hq
      obtain ⟨W, hqW⟩ := hq
      have h1 := isPathW_length_pos hqW
      by_contra hlt
      have : q.length = 1 := by omega
      exact hx (by simp [← isPathW_length_one hqW this])
    obtain ⟨res, hres, hpath, hmin⟩ := spAux_main g start endv hreach' (spFuel g)
      [start] [(start, [start])] [] 1
      (by simp)
      (by intro e he; obtain rfl := List.mem_singleton.mp he; simp)
      (by intro e he; obtain rfl := List.mem_singleton.mp he; simp)
      hIC0
      (by intro e he; obtain rfl := List.mem_singleton.mp he; exact ⟨0, IsPathW.single start⟩)
      (by
        intro e he q hq
        obtain rfl := List.mem_singleton.mp he
        obtain ⟨W, hqW⟩ := hq
        simpa using isPathW_length_pos hqW)
      (by intro x hx; obtain rfl := List.mem_singleton.mp hx; exact Or.inr ⟨_, List.mem_singleton.mpr rfl⟩)
      (by intro y hy; simp at hy)
      (by simpa using fun h => hne h.symm)
      (by simp)
      (by
        have hle : filterNM (mentioned g) [start] ≤ (mentioned g).length :=
          List.length_filter_le _ _
        unfold spFuel
        simp only [List.length_cons, List.length_nil]
        omega)
    refine ⟨res, ?_, hpath, hmin⟩
    rw [shortest_path_bfs, if_neg hne]
    exact hres
  · intro hne hur
    cases hsp : shortest_path_bfs g start endv with
    | none => rfl
    | some res =>
      exfalso
      rw [shortest_path_bfs, if_neg hne] at hsp
      have := spAux_sound g start endv (spFuel g) [start] [(start, [start])]
        (by intro e he; simp at he; subst he; exact ⟨0, IsPathW.single start⟩) res hsp
      exact hur (reach_iff_isPath.mpr ⟨res, this⟩)

/-- The 5-vertex chain 0–1–2–3–4 (the spec's A–B–C–D–E example). -/
def gChain : Graph :=
  add_edge (add_edge (add_edge (add_edge (graphInit false) 0 1 1) 1 2 1) 2 3 1) 3 4 1

/-- Witness for claim C5 on the 5-vertex chain, end reachable. -/
theorem claim_C5_witness :
    (0 : Nat) ≠ 4 ∧ Reach gChain 0 4 ∧
    (∃ res, shortest_path_bfs gChain 0 4 = some res ∧ IsPath gChain 0 4 res ∧
      ∀ q, IsPath gChain 0 4 q → res.length ≤ q.length) := by
  have h1 : Edge gChain 0 1 := ⟨1, by decide⟩
  have h2 : Edge gChain 1 2 := ⟨1, by decide⟩
  have h3 : Edge gChain 2 3 := ⟨1, by decide⟩
  have h4 : Edge gChain 3 4 := ⟨1, by decide⟩
  have hreach : Reach gChain 0 4 :=
    Relation.ReflTransGen.tail
      (Relation.ReflTransGen.tail
        (Relation.ReflTransGen.tail (Relation.ReflTransGen.tail Relation.ReflTransGen.refl h1)
          h2) h3) h4
  exact ⟨by decide, hreach, (claim_C5 gChain 0 4).2.1 (by decide) hreach⟩

/-! Claims C9 and C3: the dijkstra loop.  Priority-queue and measure lemmas. -/

theorem findMin_mem : ∀ (xs : List (Int × Nat)) (m : Int × Nat), findMin m xs ∈ m :: xs := by
  intro xs
  induction xs with
  | nil => intro m; simp [findMin]
  | cons x xs ih =>
    intro m
    unfold findMin
    by_cases h : tupLtB x m
    · rw [if_pos h]
      rcases List.mem_cons.mp (ih x) with h' | h'
      · rw [h']
        exact List.mem_cons_of_mem _ (List.mem_cons_self _ _)
      · exact List.mem_cons_of_mem _ (List.mem_cons_of_mem _ h')
    · rw [if_neg h]
      rcases List.mem_cons.mp (ih m) with h' | h'
      · rw [h']
        exact List.mem_cons_self _ _
      · exact List.mem_cons_of_mem _ (List.mem_cons_of_mem _ h')

theorem eraseFirst_length : ∀ (l : List (Int × Nat)) (y : Int × Nat), y ∈ l →
    (eraseFirst l y).length + 1 = l.length := by
  intro l
  induction l with
  | nil => intro y h; simp at h
  | cons x xs ih =>
    intro y hy
    unfold eraseFirst
    by_cases h : x = y
    · rw [if_pos h]; simp
    · rw [if_neg h]
      rcases List.mem_cons.mp hy with h' | h'
      · exact absurd h'.symm h
      · simp [ih y h']

theorem mem_eraseFirst : ∀ (l : List (Int × Nat)) (y x : Int × Nat),
    x ∈ eraseFirst l y → x ∈ l := by
  intro l
  induction l with
  | nil => intro y x h; simp [eraseFirst] at h
  | cons a xs ih =>
    intro y x hx
    unfold eraseFirst at hx
    by_cases h : a = y
    · rw [if_pos h] at hx
      exact List.mem_cons_of_mem _ hx
    · rw [if_neg h] at hx
      rcases List.mem_cons.mp hx with h' | h'
      · exact h' ▸ List.mem_cons_self _ _
      · exact List.mem_cons_of_mem _ (ih y x h')

theorem mapSet_isSome_preserved {β : Type} {d : PyDict β} {k v : Nat} {x : β}
    (h : (mapLookup d v).isSome) : (mapLookup (mapSet d k x) v).isSome := by
  by_cases hk : k = v
  · subst hk
    rw [mapLookup_mapSet_self]
    rfl
  · rw [mapLookup_mapSet_ne hk]
    exact h

theorem mapSet_keys_of_isSome {β : Type} {d : PyDict β} {k : Nat} {x : β}
    (h : (mapLookup d k).isSome) : (mapSet d k x).map Prod.fst = d.map Prod.fst := by
  induction d with
  | nil => simp [mapLookup] at h
  | cons p rest ih =>
    obtain ⟨a, b⟩ := p
    by_cases ha : a = k
    · subst ha
      simp [mapSet]
    · simp only [mapLookup, if_neg ha] at h
      simp [mapSet, ha, ih h]

theorem mapLookup_eq_none_iff {β : Type} {d : PyDict β} {v : Nat} :
    mapLookup d v = none ↔ v ∉ d.map Prod.fst := by
  induction d with
  | nil => simp [mapLookup]
  | cons p rest ih =>
    obtain ⟨k, x⟩ := p
    by_cases hk : k = v
    · subst hk
      simp [mapLookup]
    · rw [show mapLookup ((k, x) :: rest) v = mapLookup rest v by simp [mapLookup, hk]]
      rw [ih]
      simp only [List.map_cons, List.mem_cons]
      constructor
      · intro h hmem
        rcases hmem with h' | h'
        · exact hk h'.symm
        · exact h h'
      · intro h hmem
        exact h (Or.inr hmem)

/-- Credit of one distance-map key in the dijkstra fuel measure. -/
def keyWeight (g : Graph) (k : Nat) : Nat := 1 + (adjGet g.adj k).length

/-- Total credit of the not-yet-visited keys. -/
def unvisitedWeight (g : Graph) (keys V : List Nat) : Nat :=
  ((keys.filter (fun k => decide (k ∉ V))).map (keyWeight g)).sum

/-- Remaining-fuel measure of a dijkstra loop state. -/
def mRem (g : Graph) (st : DijkState) : Nat :=
  st.pq.length + unvisitedWeight g (st.distances.map Prod.fst) st.visited

theorem unvisitedWeight_mono {g : Graph} {keys V W : List Nat} (h : ∀ x ∈ V, x ∈ W) :
    unvisitedWeight g keys W ≤ unvisitedWeight g keys V := by
  unfold unvisitedWeight
  induction keys with
  | nil => simp
  | cons a keys ih =>
    rw [List.filter_cons, List.filter_cons]
    by_cases haW : a ∈ W
    · rw [if_neg (by simp [haW])]
      by_cases haV : a ∈ V
      · rw [if_neg (by simp [haV])]; exact ih
      · rw [if_pos (by simp [haV])]
        simp only [List.map_cons, List.sum_cons]
        omega
    · have haV : a ∉ V := fun hv => haW (h a hv)
      rw [if_pos (by simp [haW]), if_pos (by simp [haV])]
      simp only [List.map_cons, List.sum_cons]
      omega

theorem unvisitedWeight_visit {g : Graph} {keys V : List Nat} {c : Nat}
    (hc : c ∈ keys) (hcv : c ∉ V) :
    unvisitedWeight g keys (V ++ [c]) + keyWeight g c ≤ unvisitedWeight g keys V := by
  induction keys with
  | nil => simp at hc
  | cons a keys ih =>
    unfold unvisitedWeight
    rw [List.filter_cons, List.filter_cons]
    by_cases hac : a = c
    · subst hac
      rw [if_neg (by simp), if_pos (by simp [hcv])]
      have hmono : unvisitedWeight g keys (V ++ [a]) ≤ unvisitedWeight g keys V :=
        unvisitedWeight_mono (fun x hx => List.mem_append.mpr (Or.inl hx))
      unfold unvisitedWeight at hmono
      simp only [List.map_cons, List.sum_cons]
      omega
    · have hc' : c ∈ keys := by
        rcases List.mem_cons.mp hc with h | h
        · exact absurd h.symm hac
        · exact h
      have ih' := ih hc'
      unfold unvisitedWeight at ih'
      by_cases haV : a ∈ V
      · have haVc : a ∈ V ++ [c] := List.mem_append.mpr (Or.inl haV)
        rw [if_neg (by simp [haVc]), if_neg (by simp [haV])]
        exact ih'
      · by_cases haVc : a ∈ V ++ [c]
        · rcases List.mem_append.mp haVc with h | h
          · exact absurd h haV
          · simp at h
            exact absurd h hac
        · rw [if_pos (by simp [haVc]), if_pos (by simp [haV])]
          simp only [List.map_cons, List.sum_cons]
          omega

/-- The state carried by either outcome of the relaxation loop. -/
def relaxOut : Sum DijkState DijkState → DijkState
  | Sum.inl st => st
  | Sum.inr st => st

theorem relaxAll_basic (current : Nat) (cd : Int) :
    ∀ (ns : List (Nat × Int)) (st : DijkState),
      (relaxOut (relaxAll current cd st ns)).distances.map Prod.fst =
        st.distances.map Prod.fst ∧
      (relaxOut (relaxAll current cd st ns)).visited = st.visited ∧
      (relaxOut (relaxAll current cd st ns)).processed = st.processed ∧
      (relaxOut (relaxAll current cd st ns)).pq.length ≤ st.pq.length + ns.length ∧
      ((∀ e ∈ st.pq, (mapLookup st.distances e.2).isSome) →
        ∀ e ∈ (relaxOut (relaxAll current cd st ns)).pq,
          (mapLookup (relaxOut (relaxAll current cd st ns)).distances e.2).isSome) := by
  intro ns
  induction ns with
  | nil =>
    intro st
    exact ⟨rfl, rfl, rfl, by simp [relaxAll, relaxOut], fun h => by
      simpa [relaxAll, relaxOut] using h⟩
  | cons ew rest ih =>
    intro st
    obtain ⟨n, w⟩ := ew
    have hstep : relaxAll current cd st ((n, w) :: rest) =
        (match mapLookup st.distances n with
         | none => Sum.inl st
         | some old =>
           if (match old with | none => true | some o => decide (cd + w < o)) then
             relaxAll current cd
               { st with distances := mapSet st.distances n (some (cd + w)),
                         previous := mapSet st.previous n current,
                         pq := st.pq ++ [(cd + w, n)] } rest
           else relaxAll current cd st rest) := rfl
    rw [hstep]
    split
    · exact ⟨rfl, rfl, rfl, by simp [relaxOut], fun h => by simpa [relaxOut] using h⟩
    · rename_i old hl
      split
      · have hsome : (mapLookup st.distances n).isSome := by rw [hl]; rfl
        obtain ⟨k1, k2, k3, k4, k5⟩ := ih
          { st with distances := mapSet st.distances n (some (cd + w)),
                    previous := mapSet st.previous n current,
                    pq := st.pq ++ [(cd + w, n)] }
        have hkeys' : (mapSet st.distances n (some (cd + w))).map Prod.fst =
            st.distances.map Prod.fst := mapSet_keys_of_isSome hsome
        refine ⟨k1.trans hkeys', k2, k3, ?_, ?_⟩
        · simp only [List.length_append, List.length_singleton] at k4
          simp only [List.length_cons]
          omega
        · intro h
          refine k5 ?_
          intro e he
          rcases List.mem_append.mp he with h' | h'
          · exact mapSet_isSome_preserved (h e h')
          · simp at h'
            rw [show e.2 = n by rw [h']]
            rw [mapLookup_mapSet_self]
            rfl
      · obtain ⟨k1, k2, k3, k4, k5⟩ := ih st
        exact ⟨k1, k2, k3, by simp only [List.length_cons]; omega, k5⟩

theorem isSome_mem_keys {β : Type} {d : PyDict β} {v : Nat}
    (h : (mapLookup d v).isSome) : v ∈ d.map Prod.fst := by
  by_contra hmem
  rw [← mapLookup_eq_none_iff] at hmem
  rw [hmem] at h
  simp at h

theorem dijkLoop_basic (g : Graph) (endv : Option Nat) :
    ∀ (fuel : Nat) (st : DijkState),
      (∀ e ∈ st.pq, (mapLookup st.distances e.2).isSome) →
      mRem g st + 1 ≤ fuel →
      ∃ st' err, dijkLoop g endv fuel st = (st', err) ∧ err ≠ some DError.outOfFuel ∧
        st'.distances.map Prod.fst = st.distances.map Prod.fst := by
  intro fuel
  induction fuel with
  | zero => intro st _ hf; omega
  | succ fuel ih =>
    intro st hkeys hf
    have hstep : dijkLoop g endv (fuel + 1) st =
        (match st.pq with
         | [] => (st, none)
         | e :: rest =>
           let m := findMin e rest
           let pq' := eraseFirst (e :: rest) m
           if m.2 ∈ st.visited then dijkLoop g endv fuel { st with pq := pq' }
           else
             let st1 := { st with pq := pq', visited := st.visited ++ [m.2] }
             if endv = some m.2 then (st1, none)
             else
               match relaxAll m.2 m.1 { st1 with processed := st1.processed ++ [m.2] }
                   (adjGet g.adj m.2) with
               | Sum.inl st2 => (st2, some DError.keyError)
               | Sum.inr st2 => dijkLoop g endv fuel st2) := rfl
    rw [hstep]
    split
    · rename_i hpq
      exact ⟨st, none, rfl, by simp, rfl⟩
    · rename_i e rest hpq
      have hmmem : findMin e rest ∈ st.pq := by rw [hpq]; exact findMin_mem rest e
      have hpqlen : (eraseFirst (e :: rest) (findMin e rest)).length + 1 = st.pq.length := by
        rw [hpq]
        exact eraseFirst_length _ _ (findMin_mem rest e)
      have hpqsub : ∀ x ∈ eraseFirst (e :: rest) (findMin e rest), x ∈ st.pq := by
        intro x hx
        rw [hpq]
        exact mem_eraseFirst _ _ _ hx
      by_cases hvis : (findMin e rest).2 ∈ st.visited
      · rw [if_pos hvis]
        have hkeys' : ∀ x ∈ eraseFirst (e :: rest) (findMin e rest),
            (mapLookup st.distances x.2).isSome := fun x hx => hkeys x (hpqsub x hx)
        have hf' : mRem g { st with pq := eraseFirst (e :: rest) (findMin e rest) } + 1 ≤ fuel := by
          unfold mRem at hf ⊢
          simp only at hf ⊢
          omega
        exact ih _ hkeys' hf'
      · rw [if_neg hvis]
        by_cases hend : endv = some (findMin e rest).2
        · rw [if_pos hend]
          exact ⟨_, none, rfl, by simp, rfl⟩
        · rw [if_neg hend]
          obtain ⟨k1, k2, k3, k4, k5⟩ := relaxAll_basic (findMin e rest).2 (findMin e rest).1
            (adjGet g.adj (findMin e rest).2)
            { st with pq := eraseFirst (e :: rest) (findMin e rest),
                      visited := st.visited ++ [(findMin e rest).2],
                      processed := st.processed ++ [(findMin e rest).2] }
          have hkeys1 : ∀ x ∈ eraseFirst (e :: rest) (findMin e rest),
              (mapLookup st.distances x.2).isSome := fun x hx => hkeys x (hpqsub x hx)
          have hmkey : (findMin e rest).2 ∈ st.distances.map Prod.fst :=
            isSome_mem_keys (hkeys _ hmmem)
          cases hr : relaxAll (findMin e rest).2 (findMin e rest).1
              { st with pq := eraseFirst (e :: rest) (findMin e rest),
                        visited := st.visited ++ [(findMin e rest).2],
                        processed := st.processed ++ [(findMin e rest).2] }
              (adjGet g.adj (findMin e rest).2) with
          | inl st2 =>
            rw [hr] at k1
            exact ⟨st2, some DError.keyError, rfl, by simp, by simpa [relaxOut] using k1⟩
          | inr st2 =>
            rw [hr] at k1 k2 k4 k5
            simp only [relaxOut] at k1 k2 k4 k5
            have hkeys2 : ∀ x ∈ st2.pq, (mapLookup st2.distances x.2).isSome :=
              k5 hkeys1
            have hvisit := @unvisitedWeight_visit g (st.distances.map Prod.fst)
              st.visited (findMin e rest).2 hmkey hvis
            have hf2 : mRem g st2 + 1 ≤ fuel := by
              unfold mRem at hf ⊢
              rw [k1, k2]
              unfold keyWeight at hvisit
              have k4' : st2.pq.length ≤ (eraseFirst (e :: rest) (findMin e rest)).length +
                  (adjGet g.adj (findMin e rest).2).length := k4
              omega
            obtain ⟨st', err, heq, hne, hkk⟩ := ih st2 hkeys2 hf2
            exact ⟨st', err, heq, hne, hkk.trans k1⟩

theorem dist0_keys_sub (g : Graph) (start : Nat) :
    ∀ x ∈ (dijkInit g start).distances.map Prod.fst, x ∈ g.vertices ∨ x = start := by
  intro x hx
  obtain ⟨p, hp, hfst⟩ := List.mem_map.mp hx
  rcases mem_mapSet hp with h | h
  · right
    rw [← hfst, h]
  · left
    obtain ⟨v, hv, hveq⟩ := List.mem_map.mp h
    rw [← hfst, ← hveq]
    exact hv

/-- Claim C9: when the supplied `end` is a vertex never added to the graph and
distinct from `start`, `dijkstra(start, end)` raises a `KeyError` (the final
`distances[end]` lookup, whose dict is keyed by the known vertices only)
instead of returning the `(None, inf)` sentinel pair. -/
theorem claim_C9 (g : Graph) (start e : Nat) (h1 : e ∉ g.vertices) (h2 : e ≠ start) :
    dijkstra g start (some e) = Sum.inl DError.keyError := by
  have hkeys0 : ∀ ent ∈ (dijkInit g start).pq,
      (mapLookup (dijkInit g start).distances ent.2).isSome := by
    intro ent hent
    have : ent = ((0 : Int), start) := by simpa [dijkInit] using hent
    rw [this]
    show (mapLookup (mapSet (g.vertices.map (fun v => (v, (none : Option Int)))) start
      (some 0)) start).isSome
    rw [mapLookup_mapSet_self]
    rfl
  have hfuel : mRem g (dijkInit g start) + 1 ≤ dijkFuel g start := by
    unfold mRem dijkFuel unvisitedWeight
    have hfe : ((dijkInit g start).distances.map Prod.fst).filter
        (fun k => decide (k ∉ (dijkInit g start).visited)) =
        (dijkInit g start).distances.map Prod.fst := by
      apply List.filter_eq_self.mpr
      intro a ha
      simp [dijkInit]
    show (1 : Nat) + _ + 1 ≤ 2 + _
    rw [hfe]
    have : (((dijkInit g start).distances.map Prod.fst).map (keyWeight g)).sum =
        ((dijkInit g start).distances.map (fun p => 1 + (adjGet g.adj p.1).length)).sum := by
      rw [List.map_map]
      rfl
    omega
  obtain ⟨st', err, heq, hne, hk⟩ := dijkLoop_basic g (some e) (dijkFuel g start)
    (dijkInit g start) hkeys0 hfuel
  have hlook : mapLookup st'.distances e = none := by
    rw [mapLookup_eq_none_iff, hk]
    intro hmem
    rcases dist0_keys_sub g start e hmem with h | h
    · exact h1 h
    · exact h2 h
  unfold dijkstra dijkstraRun
  rw [heq]
  cases err with
  | none => simp [hlook]
  | some er =>
    cases er with
    | keyError => rfl
    | outOfFuel => exact absurd rfl hne

theorem claim_C9_witness :
    (7 ∉ (execOps false [Op.addVertex 0, Op.addVertex 1, Op.addEdge 0 1 1]).vertices ∧
      (7 : Nat) ≠ 0) ∧
    dijkstra (execOps false [Op.addVertex 0, Op.addVertex 1, Op.addEdge 0 1 1])
      0 (some 7) = Sum.inl DError.keyError :=
  ⟨⟨by decide, by decide⟩,
    claim_C9 (execOps false [Op.addVertex 0, Op.addVertex 1, Op.addEdge 0 1 1])
      0 7 (by decide) (by decide)⟩

/-! Infrastructure for the full dijkstra correctness claim: lexicographic
heap-minimum facts, non-negative path weights, a weighted snoc decomposition
of paths, and positions in the visit order. -/

theorem tupLtB_true_iff {x y : Int × Nat} :
    tupLtB x y = true ↔ x.1 < y.1 ∨ (x.1 = y.1 ∧ x.2 < y.2) := by
  unfold tupLtB
  rcases x with ⟨x1, x2⟩
  rcases y with ⟨y1, y2⟩
  simp only [Bool.or_eq_true, Bool.and_eq_true, decide_eq_true_eq, beq_iff_eq]

theorem tupLtB_false_iff {x y : Int × Nat} :
    tupLtB x y = false ↔ y.1 < x.1 ∨ (y.1 = x.1 ∧ y.2 ≤ x.2) := by
  rw [← Bool.not_eq_true, tupLtB_true_iff]
  constructor
  · intro h
    rcases x with ⟨x1, x2⟩
    rcases y with ⟨y1, y2⟩
    simp only at h ⊢
    omega
  · intro h
    rcases x with ⟨x1, x2⟩
    rcases y with ⟨y1, y2⟩
    simp only at h ⊢
    omega

theorem tupLtB_false_le {x y : Int × Nat} (h : tupLtB x y = false) : y.1 ≤ x.1 := by
  rcases tupLtB_false_iff.mp h with h | ⟨h, _⟩
  · omega
  · omega

theorem tupLtB_self_false (m : Int × Nat) : tupLtB m m = false :=
  tupLtB_false_iff.mpr (Or.inr ⟨rfl, le_refl _⟩)

theorem tupLtB_asymm {a b : Int × Nat} (h : tupLtB a b = true) : tupLtB b a = false := by
  rcases tupLtB_true_iff.mp h with h1 | ⟨h1, h2⟩
  · exact tupLtB_false_iff.mpr (Or.inl h1)
  · exact tupLtB_false_iff.mpr (Or.inr ⟨h1, Nat.le_of_lt h2⟩)

theorem tupLtB_false_trans {a b c : Int × Nat} (h1 : tupLtB b a = false)
    (h2 : tupLtB c b = false) : tupLtB c a = false := by
  rcases tupLtB_false_iff.mp h1 with g1 | ⟨g1, g1'⟩ <;>
    rcases tupLtB_false_iff.mp h2 with g2 | ⟨g2, g2'⟩ <;>
      apply tupLtB_false_iff.mpr
  · exact Or.inl (by omega)
  · exact Or.inl (by omega)
  · exact Or.inl (by omega)
  · exact Or.inr ⟨by omega, by omega⟩

theorem findMin_not_lt : ∀ (xs : List (Int × Nat)) (m : Int × Nat),
    ∀ x ∈ m :: xs, tupLtB x (findMin m xs) = false := by
  intro xs
  induction xs with
  | nil =>
    intro m x hx
    have hxm : x = m := by simpa using hx
    subst hxm
    show tupLtB x (findMin x []) = false
    unfold findMin
    exact tupLtB_self_false x
  | cons a xs ih =>
    intro m x hx
    have hfm : findMin m (a :: xs) = findMin (if tupLtB a m then a else m) xs := rfl
    rw [hfm]
    have hbase : tupLtB m (if tupLtB a m then a else m) = false ∧
        tupLtB a (if tupLtB a m then a else m) = false := by
      by_cases h : tupLtB a m
      · rw [if_pos h]
        exact ⟨tupLtB_asymm h, tupLtB_self_false a⟩
      · rw [if_neg h]
        exact ⟨tupLtB_self_false m, by simpa using h⟩
    have hself : tupLtB (if tupLtB a m then a else m)
        (findMin (if tupLtB a m then a else m) xs) = false :=
      ih _ _ (List.mem_cons_self _ _)
    rcases List.mem_cons.mp hx with rfl | hx'
    · exact tupLtB_false_trans hself hbase.1
    · rcases List.mem_cons.mp hx' with rfl | hx''
      · exact tupLtB_false_trans hself hbase.2
      · exact ih _ _ (List.mem_cons_of_mem _ hx'')

theorem findMin_fst_le {xs : List (Int × Nat)} {m x : Int × Nat} (hx : x ∈ m :: xs) :
    (findMin m xs).1 ≤ x.1 :=
  tupLtB_false_le (findMin_not_lt xs m x hx)

/-- All weights stored in the adjacency map are non-negative. -/
def WNonneg (g : Graph) : Prop := ∀ kv ∈ g.adj, ∀ nw ∈ kv.2, 0 ≤ nw.2

theorem adjGet_w_nonneg {g : Graph} (hW : WNonneg g) {u : Nat} {nw : Nat × Int}
    (h : nw ∈ adjGet g.adj u) : 0 ≤ nw.2 := by
  unfold adjGet at h
  cases hl : mapLookup g.adj u with
  | none => rw [hl] at h; simp at h
  | some l => rw [hl] at h; exact hW _ (mapLookup_mem hl) _ h

theorem isPathW_nonneg {g : Graph} (hW : WNonneg g) {a b : Nat} {p : List Nat} {W : Int}
    (h : IsPathW g a b p W) : 0 ≤ W := by
  induction h with
  | single v => exact le_refl 0
  | cons u n v w p' W' hmem hsub ih =>
    have h2 : 0 ≤ w := adjGet_w_nonneg hW hmem
    omega

theorem isPathW_snoc_cases_w {g : Graph} {a b : Nat} {p : List Nat} {W : Int}
    (h : IsPathW g a b p W) :
    (p = [a] ∧ a = b ∧ W = 0) ∨
    ∃ y q V w, p = q ++ [b] ∧ IsPathW g a y q V ∧ (b, w) ∈ adjGet g.adj y ∧ W = V + w := by
  induction h with
  | single v => exact Or.inl ⟨rfl, rfl, rfl⟩
  | cons u n v w p' W' hmem hsub ih =>
    rcases ih with ⟨hp', hnv, hW0⟩ | ⟨y, q, V, w2, hq, hpath, hedge, hWw⟩
    · subst hnv
      subst hp'
      subst hW0
      refine Or.inr ⟨u, [u], 0, w, rfl, IsPathW.single u, hmem, by ring⟩
    · subst hq
      subst hWw
      exact Or.inr ⟨y, u :: q, w + V, w2, rfl,
        IsPathW.cons u n y w q V hmem hpath, hedge, by ring⟩

/-- Position of a vertex in the visit order (first occurrence; `length` if absent). -/
def posIn : List Nat → Nat → Nat
  | [], _ => 0
  | x :: xs, v => if x = v then 0 else posIn xs v + 1

theorem posIn_lt_length : ∀ {l : List Nat} {v : Nat}, v ∈ l → posIn l v < l.length := by
  intro l
  induction l with
  | nil => intro v h; simp at h
  | cons x xs ih =>
    intro v h
    unfold posIn
    by_cases hx : x = v
    · rw [if_pos hx]; simp
    · rw [if_neg hx]
      have hv : v ∈ xs := by
        rcases List.mem_cons.mp h with h' | h'
        · exact absurd h'.symm hx
        · exact h'
      have := ih hv
      simp only [List.length_cons]
      omega

theorem posIn_append_left : ∀ {l : List Nat} (l' : List Nat) {v : Nat}, v ∈ l →
    posIn (l ++ l') v = posIn l v := by
  intro l
  induction l with
  | nil => intro l' v h; simp at h
  | cons x xs ih =>
    intro l' v h
    unfold posIn
    by_cases hx : x = v
    · rw [List.cons_append]
      show (if x = v then 0 else posIn (xs ++ l') v + 1) = _
      rw [if_pos hx, if_pos hx]
    · rw [List.cons_append]
      show (if x = v then 0 else posIn (xs ++ l') v + 1) = _
      rw [if_neg hx, if_neg hx]
      have hv : v ∈ xs := by
        rcases List.mem_cons.mp h with h' | h'
        · exact absurd h'.symm hx
        · exact h'
      rw [ih l' hv]

theorem posIn_append_self : ∀ {l : List Nat} {v : Nat}, v ∉ l →
    posIn (l ++ [v]) v = l.length := by
  intro l
  induction l with
  | nil => intro v _; simp [posIn]
  | cons x xs ih =>
    intro v h
    have hx : x ≠ v := fun he => h (he ▸ List.mem_cons_self _ _)
    have hv : v ∉ xs := fun hm => h (List.mem_cons_of_mem _ hm)
    rw [List.cons_append]
    show (if x = v then 0 else posIn (xs ++ [v]) v + 1) = (x :: xs).length
    rw [if_neg hx, ih hv]
    simp

theorem mem_eraseFirst_of_ne : ∀ (l : List (Int × Nat)) (y x : Int × Nat),
    x ∈ l → x ≠ y → x ∈ eraseFirst l y := by
  intro l
  induction l with
  | nil => intro y x h _; simp at h
  | cons a xs ih =>
    intro y x hx hne
    unfold eraseFirst
    by_cases h : a = y
    · rw [if_pos h]
      rcases List.mem_cons.mp hx with rfl | h'
      · exact absurd h hne
      · exact h'
    · rw [if_neg h]
      rcases List.mem_cons.mp hx with rfl | h'
      · exact List.mem_cons_self _ _
      · exact List.mem_cons_of_mem _ (ih y x h' hne)

theorem mem_keys_isSome {β : Type} {d : PyDict β} {v : Nat} (h : v ∈ d.map Prod.fst) :
    (mapLookup d v).isSome := by
  rw [Option.isSome_iff_ne_none]
  intro hn
  exact (mapLookup_eq_none_iff.mp hn) h

theorem mem_keys_mapSet {β : Type} {d : PyDict β} {k v : Nat} {x : β}
    (h : v ∈ d.map Prod.fst) : v ∈ (mapSet d k x).map Prod.fst :=
  isSome_mem_keys (mapSet_isSome_preserved (mem_keys_isSome h))

theorem mem_dist0_keys {g : Graph} {start v : Nat} (h : v ∈ g.vertices ∨ v = start) :
    v ∈ (dijkInit g start).distances.map Prod.fst := by
  rcases h with h | h
  · apply mem_keys_mapSet
    have hk : (g.vertices.map (fun v => (v, (none : Option Int)))).map Prod.fst =
        g.vertices := by
      rw [List.map_map]
      induction g.vertices with
      | nil => rfl
      | cons a l ihl => simpa using ihl
    rw [hk]
    exact h
  · subst h
    exact isSome_mem_keys (by
      show (mapLookup (mapSet (g.vertices.map (fun u => (u, (none : Option Int)))) v
        (some 0)) v).isSome
      rw [mapLookup_mapSet_self]
      rfl)

/-- Invariant of the dijkstra main loop relating the distance map, the priority
queue, the visited set and the predecessor map (everything except full
relaxation of the visited set, which the `end`-break can interrupt). -/
structure DBase (g : Graph) (start : Nat) (st : DijkState) : Prop where
  keys : st.distances.map Prod.fst = (dijkInit g start).distances.map Prod.fst
  dstart : mapLookup st.distances start = some (some 0)
  realized : ∀ v dv, mapLookup st.distances v = some (some dv) → ∃ p, IsPathW g start v p dv
  vopt : ∀ u ∈ st.visited, ∃ du, mapLookup st.distances u = some (some du) ∧
    ∀ p w, IsPathW g start u p w → du ≤ w
  dom : ∀ v dv, v ∉ st.visited → mapLookup st.distances v = some (some dv) → (dv, v) ∈ st.pq
  pqd : ∀ x ∈ st.pq, ∃ d, mapLookup st.distances x.2 = some (some d) ∧ d ≤ x.1
  pvcons : ∀ v u, mapLookup st.previous v = some u → u ∈ st.visited ∧ v ≠ start ∧
    ∃ w, (v, w) ∈ adjGet g.adj u ∧ ∃ du dv, mapLookup st.distances u = some (some du) ∧
      mapLookup st.distances v = some (some dv) ∧ dv = du + w
  pvidx : ∀ v u, mapLookup st.previous v = some u → v ∈ st.visited →
    posIn st.visited u < posIn st.visited v
  psome : ∀ v dv, v ≠ start → mapLookup st.distances v = some (some dv) →
    (mapLookup st.previous v).isSome

/-- Every visited vertex has had all of its outgoing edges relaxed. -/
def Relaxed (g : Graph) (st : DijkState) : Prop :=
  ∀ u ∈ st.visited, ∀ du, mapLookup st.distances u = some (some du) →
    ∀ nw ∈ adjGet g.adj u, ∃ dn, mapLookup st.distances nw.1 = some (some dn) ∧
      dn ≤ du + nw.2

theorem dijk_cut {g : Graph} {start : Nat} (hW : WNonneg g) {st : DijkState}
    (hB : DBase g start st) (hR : Relaxed g st) {k : Int}
    (hmin : ∀ x ∈ st.pq, k ≤ x.1) :
    ∀ (n v : Nat) (p : List Nat) (w : Int), p.length ≤ n →
      IsPathW g start v p w → v ∉ st.visited → k ≤ w := by
  intro n
  induction n with
  | zero =>
    intro v p w hl hp hv
    have := isPathW_length_pos hp
    omega
  | succ n ih =>
    intro v p w hl hp hv
    rcases isPathW_snoc_cases_w hp with ⟨hp1, hab, hw0⟩ | ⟨y, q, V, w2, hq, hqpath, hedge, hww⟩
    · subst hab
      subst hw0
      exact hmin _ (hB.dom _ 0 hv hB.dstart)
    · subst hq
      subst hww
      by_cases hy : y ∈ st.visited
      · obtain ⟨du, hdu, hopt⟩ := hB.vopt y hy
        obtain ⟨dn, hdn, hle⟩ := hR y hy du hdu (v, w2) hedge
        have hle' : dn ≤ du + w2 := hle
        have h1 : k ≤ dn := hmin _ (hB.dom v dn hv hdn)
        have h2 : du ≤ V := hopt q V hqpath
        omega
      · have hlen : q.length ≤ n := by
          simp only [List.length_append, List.length_singleton] at hl
          omega
        have h1 : k ≤ V := ih y q V hlen hqpath hy
        have h2 : 0 ≤ w2 := adjGet_w_nonneg hW hedge
        omega

theorem dijk_pop {g : Graph} {start : Nat} (hW : WNonneg g) {st : DijkState}
    (hB : DBase g start st) (hR : Relaxed g st) {e : Int × Nat} {rest : List (Int × Nat)}
    (hpq : st.pq = e :: rest) (hvis : (findMin e rest).2 ∉ st.visited) :
    mapLookup st.distances (findMin e rest).2 = some (some (findMin e rest).1) ∧
    ∀ p w, IsPathW g start (findMin e rest).2 p w → (findMin e rest).1 ≤ w := by
  have hmmem : findMin e rest ∈ st.pq := by rw [hpq]; exact findMin_mem rest e
  obtain ⟨d, hd, hdle⟩ := hB.pqd _ hmmem
  have hdom : (d, (findMin e rest).2) ∈ st.pq := hB.dom _ d hvis hd
  rw [hpq] at hdom
  have hlow : (findMin e rest).1 ≤ d := findMin_fst_le hdom
  have hde : d = (findMin e rest).1 := le_antisymm hdle hlow
  have hmin : ∀ x ∈ st.pq, (findMin e rest).1 ≤ x.1 := by
    intro x hx
    rw [hpq] at hx
    exact findMin_fst_le hx
  rw [hde] at hd
  exact ⟨hd, fun p w hp => dijk_cut hW hB hR hmin p.length _ p w (le_refl _) hp hvis⟩

/-- Every adjacency-list neighbor is a key of the initial distance dict. -/
def NbrsKeyed (g : Graph) (start : Nat) : Prop :=
  ∀ v : Nat, ∀ nw ∈ adjGet g.adj v, nw.1 ∈ (dijkInit g start).distances.map Prod.fst

theorem relaxAll_main {g : Graph} {start : Nat} (c : Nat) (cd : Int)
    (hW : WNonneg g) (hN : NbrsKeyed g start) :
    ∀ (ns done : List (Nat × Int)) (st : DijkState),
      adjGet g.adj c = done ++ ns →
      DBase g start st →
      c ∈ st.visited →
      mapLookup st.distances c = some (some cd) →
      (∀ u ∈ st.visited, u ≠ c → ∀ du, mapLookup st.distances u = some (some du) →
        ∀ nw ∈ adjGet g.adj u, ∃ dn, mapLookup st.distances nw.1 = some (some dn) ∧
          dn ≤ du + nw.2) →
      (∀ nw ∈ done, ∃ dn, mapLookup st.distances nw.1 = some (some dn) ∧ dn ≤ cd + nw.2) →
      ∃ st', relaxAll c cd st ns = Sum.inr st' ∧
        st'.visited = st.visited ∧
        st'.processed = st.processed ∧
        st'.pq.length ≤ st.pq.length + ns.length ∧
        DBase g start st' ∧ Relaxed g st' ∧
        (∀ u ∈ st.visited, mapLookup st'.distances u = mapLookup st.distances u) := by
  intro ns
  induction ns with
  | nil =>
    intro done st hsplit hB hcvis hc hpartial hdone
    refine ⟨st, rfl, rfl, rfl, by simp, hB, ?_, fun u _ => rfl⟩
    intro u hu du hdu nw hnw
    by_cases huc : u = c
    · subst huc
      rw [hc] at hdu
      have h1 : (some cd : Option Int) = some du := Option.some.inj hdu
      have h2 : cd = du := Option.some.inj h1
      subst h2
      apply hdone
      rw [List.append_nil] at hsplit
      rw [← hsplit]
      exact hnw
    · exact hpartial u hu huc du hdu nw hnw
  | cons nwp rest ih =>
    intro done st hsplit hB hcvis hc hpartial hdone
    obtain ⟨n, w⟩ := nwp
    have hmemadj : (n, w) ∈ adjGet g.adj c := by
      rw [hsplit]
      exact List.mem_append_right _ (List.mem_cons_self _ _)
    have hw0 : (0 : Int) ≤ w := adjGet_w_nonneg hW hmemadj
    have hnkey : n ∈ st.distances.map Prod.fst := by
      rw [hB.keys]
      exact hN c (n, w) hmemadj
    have hnsome : (mapLookup st.distances n).isSome := mem_keys_isSome hnkey
    obtain ⟨pc, hpc⟩ := hB.realized c cd hc
    have hcd0 : (0 : Int) ≤ cd := isPathW_nonneg hW hpc
    have hpcn : IsPathW g start n (pc ++ [n]) (cd + w) := isPathW_snoc hpc hmemadj
    have hsplit' : adjGet g.adj c = (done ++ [(n, w)]) ++ rest := by
      rw [hsplit, List.append_assoc]
      rfl
    have hstep : relaxAll c cd st ((n, w) :: rest) =
        (match mapLookup st.distances n with
         | none => Sum.inl st
         | some old =>
           if (match old with | none => true | some o => decide (cd + w < o)) then
             relaxAll c cd
               { st with distances := mapSet st.distances n (some (cd + w)),
                         previous := mapSet st.previous n c,
                         pq := st.pq ++ [(cd + w, n)] } rest
           else relaxAll c cd st rest) := rfl
    rw [hstep]
    split
    · rename_i hl
      rw [hl] at hnsome
      simp at hnsome
    · rename_i old hl
      split
      · rename_i hguard
        -- the relaxation fires: the neighbor is unvisited and not the start
        have hnvis : n ∉ st.visited := by
          intro hnv
          obtain ⟨dn, hdn, hnopt⟩ := hB.vopt n hnv
          have hold : old = some dn := Option.some.inj (hl.symm.trans hdn)
          subst hold
          have hlt : cd + w < dn := by simpa using hguard
          have hge : dn ≤ cd + w := hnopt _ _ hpcn
          omega
        have hnstart : n ≠ start := by
          intro he
          subst he
          have hold : old = some 0 := Option.some.inj (hl.symm.trans hB.dstart)
          subst hold
          have hlt : cd + w < 0 := by simpa using hguard
          omega
        have hcn : c ≠ n := fun he => hnvis (he ▸ hcvis)
        -- invariant facts for the updated state
        have hkeys1 : (mapSet st.distances n (some (cd + w))).map Prod.fst =
            (dijkInit g start).distances.map Prod.fst := by
          rw [mapSet_keys_of_isSome hnsome, hB.keys]
        have hlook_self : mapLookup (mapSet st.distances n (some (cd + w))) n =
            some (some (cd + w)) := mapLookup_mapSet_self
        have hlook_ne : ∀ v, v ≠ n →
            mapLookup (mapSet st.distances n (some (cd + w))) v =
              mapLookup st.distances v := by
          intro v hv
          exact mapLookup_mapSet_ne (fun he => hv he.symm)
        have hprev_self : mapLookup (mapSet st.previous n c) n = some c :=
          mapLookup_mapSet_self
        have hprev_ne : ∀ v, v ≠ n →
            mapLookup (mapSet st.previous n c) v = mapLookup st.previous v := by
          intro v hv
          exact mapLookup_mapSet_ne (fun he => hv he.symm)
        have hc1 : mapLookup (mapSet st.distances n (some (cd + w))) c =
            some (some cd) := by
          rw [hlook_ne c hcn]
          exact hc
        -- monotone update of finite entries
        have hmono : ∀ v dv, mapLookup st.distances v = some (some dv) →
            ∃ dv', mapLookup (mapSet st.distances n (some (cd + w))) v =
              some (some dv') ∧ dv' ≤ dv := by
          intro v dv hdv
          by_cases hv : v = n
          · subst hv
            have hold : old = some dv := Option.some.inj (hl.symm.trans hdv)
            subst hold
            have hlt : cd + w < dv := by simpa using hguard
            exact ⟨cd + w, hlook_self, by omega⟩
          · exact ⟨dv, by rw [hlook_ne v hv]; exact hdv, le_refl _⟩
        have hB1 : DBase g start { st with
            distances := mapSet st.distances n (some (cd + w)),
            previous := mapSet st.previous n c,
            pq := st.pq ++ [(cd + w, n)] } := by
          refine ⟨hkeys1, ?_, ?_, ?_, ?_, ?_, ?_, ?_, ?_⟩
          · show mapLookup (mapSet st.distances n (some (cd + w))) start =
              some (some 0)
            rw [hlook_ne start (fun he => hnstart he.symm)]
            exact hB.dstart
          · intro v dv hdv
            by_cases hv : v = n
            · subst hv
              rw [hlook_self] at hdv
              have h1 : (some (cd + w) : Option Int) = some dv := Option.some.inj hdv
              have h2 : cd + w = dv := Option.some.inj h1
              exact ⟨pc ++ [v], h2 ▸ hpcn⟩
            · rw [hlook_ne v hv] at hdv
              exact hB.realized v dv hdv
          · intro u hu
            have hun : u ≠ n := fun he => hnvis (he ▸ hu)
            obtain ⟨du, hdu, hopt⟩ := hB.vopt u hu
            exact ⟨du, by rw [hlook_ne u hun]; exact hdu, hopt⟩
          · intro v dv hv hdv
            by_cases hvn : v = n
            · subst hvn
              rw [hlook_self] at hdv
              have h1 : (some (cd + w) : Option Int) = some dv := Option.some.inj hdv
              have h2 : cd + w = dv := Option.some.inj h1
              subst h2
              exact List.mem_append_right _ (List.mem_cons_self _ _)
            · rw [hlook_ne v hvn] at hdv
              exact List.mem_append_left _ (hB.dom v dv hv hdv)
          · intro x hx
            rcases List.mem_append.mp hx with hx | hx
            · obtain ⟨d, hd, hdle⟩ := hB.pqd x hx
              obtain ⟨d', hd', hdle'⟩ := hmono x.2 d hd
              exact ⟨d', hd', by omega⟩
            · have hxe : x = (cd + w, n) := by simpa using hx
              subst hxe
              exact ⟨cd + w, hlook_self, le_refl _⟩
          · intro v u hvu
            by_cases hvn : v = n
            · subst hvn
              rw [hprev_self] at hvu
              have hu : u = c := (Option.some.inj hvu).symm
              subst hu
              exact ⟨hcvis, hnstart, w, hmemadj, cd, cd + w, hc1, hlook_self, rfl⟩
            · rw [hprev_ne v hvn] at hvu
              obtain ⟨hu, hvs, w', hw', du, dv, hdu, hdv, heq⟩ := hB.pvcons v u hvu
              have hun : u ≠ n := fun he => hnvis (he ▸ hu)
              exact ⟨hu, hvs, w', hw', du, dv, by rw [hlook_ne u hun]; exact hdu,
                by rw [hlook_ne v hvn]; exact hdv, heq⟩
          · intro v u hvu hvvis
            by_cases hvn : v = n
            · subst hvn
              exact absurd hvvis hnvis
            · rw [hprev_ne v hvn] at hvu
              exact hB.pvidx v u hvu hvvis
          · intro v dv hvs hdv
            by_cases hvn : v = n
            · subst hvn
              rw [hprev_self]
              rfl
            · rw [hlook_ne v hvn] at hdv
              rw [hprev_ne v hvn]
              exact hB.psome v dv hvs hdv
        have hpartial1 : ∀ u ∈ st.visited, u ≠ c → ∀ du,
            mapLookup (mapSet st.distances n (some (cd + w))) u = some (some du) →
            ∀ nw ∈ adjGet g.adj u,
              ∃ dn, mapLookup (mapSet st.distances n (some (cd + w))) nw.1 =
                some (some dn) ∧ dn ≤ du + nw.2 := by
          intro u hu huc du hdu nw hnw
          have hun : u ≠ n := fun he => hnvis (he ▸ hu)
          rw [hlook_ne u hun] at hdu
          obtain ⟨dn, hdn, hle⟩ := hpartial u hu huc du hdu nw hnw
          obtain ⟨dn', hdn', hle'⟩ := hmono nw.1 dn hdn
          exact ⟨dn', hdn', by omega⟩
        have hdone1 : ∀ nw ∈ done ++ [(n, w)],
            ∃ dn, mapLookup (mapSet st.distances n (some (cd + w))) nw.1 =
              some (some dn) ∧ dn ≤ cd + nw.2 := by
          intro nw hnw
          rcases List.mem_append.mp hnw with hnw | hnw
          · obtain ⟨dn, hdn, hle⟩ := hdone nw hnw
            obtain ⟨dn', hdn', hle'⟩ := hmono nw.1 dn hdn
            exact ⟨dn', hdn', by omega⟩
          · have hxe : nw = (n, w) := by simpa using hnw
            subst hxe
            exact ⟨cd + w, hlook_self, le_refl _⟩
        obtain ⟨st', heq', hvis', hproc', hlen', hDB', hRel', hstable'⟩ :=
          ih (done ++ [(n, w)]) { st with
            distances := mapSet st.distances n (some (cd + w)),
            previous := mapSet st.previous n c,
            pq := st.pq ++ [(cd + w, n)] } hsplit' hB1 hcvis hc1 hpartial1 hdone1
        refine ⟨st', heq', hvis', hproc', ?_, hDB', hRel', ?_⟩
        · have h1 : (st.pq ++ [(cd + w, n)]).length = st.pq.length + 1 := by simp
          rw [h1] at hlen'
          simp only [List.length_cons]
          omega
        · intro u hu
          have hun : u ≠ n := fun he => hnvis (he ▸ hu)
          rw [hstable' u hu, hlook_ne u hun]
      · rename_i hguard
        -- no relaxation: the existing distance is already at most the candidate
        cases hold : old with
        | none =>
          subst hold
          exact absurd rfl hguard
        | some o =>
          subst hold
          have hle : o ≤ cd + w := by
            have h1 : ¬ (cd + w < o) := by simpa using hguard
            omega
          have hdone1 : ∀ nw ∈ done ++ [(n, w)],
              ∃ dn, mapLookup st.distances nw.1 = some (some dn) ∧ dn ≤ cd + nw.2 := by
            intro nw hnw
            rcases List.mem_append.mp hnw with hnw | hnw
            · exact hdone nw hnw
            · have hxe : nw = (n, w) := by simpa using hnw
              subst hxe
              exact ⟨o, hl, hle⟩
          obtain ⟨st', heq', hvis', hproc', hlen', hDB', hRel', hstable'⟩ :=
            ih (done ++ [(n, w)]) st hsplit' hB hcvis hc hpartial hdone1
          refine ⟨st', heq', hvis', hproc', ?_, hDB', hRel', hstable'⟩
          simp only [List.length_cons]
          omega

theorem dijk_visit_base {g : Graph} {start : Nat} {st : DijkState} (hW : WNonneg g)
    (hB : DBase g start st) (hR : Relaxed g st) {e0 : Int × Nat} {rest : List (Int × Nat)}
    (hpq : st.pq = e0 :: rest) (hvis : (findMin e0 rest).2 ∉ st.visited) :
    ∀ pr : List Nat, DBase g start { st with
      pq := eraseFirst (e0 :: rest) (findMin e0 rest),
      visited := st.visited ++ [(findMin e0 rest).2], processed := pr } := by
  intro pr
  obtain ⟨hmd, hmopt⟩ := dijk_pop hW hB hR hpq hvis
  refine ⟨hB.keys, hB.dstart, hB.realized, ?_, ?_, ?_, ?_, ?_, ?_⟩
  · intro u hu
    rcases List.mem_append.mp hu with hu | hu
    · exact hB.vopt u hu
    · have hue : u = (findMin e0 rest).2 := by simpa using hu
      subst hue
      exact ⟨(findMin e0 rest).1, hmd, fun p w hp => hmopt p w hp⟩
  · intro v dv hv hdv
    have hv1 : v ∉ st.visited := fun h => hv (List.mem_append_left _ h)
    have hv2 : v ≠ (findMin e0 rest).2 := by
      intro he
      exact hv (List.mem_append_right _ (by simp [he]))
    have hmem := hB.dom v dv hv1 hdv
    rw [hpq] at hmem
    exact mem_eraseFirst_of_ne _ _ _ hmem
      (fun he => hv2 (by rw [← he]))
  · intro x hx
    have hx' : x ∈ st.pq := by
      rw [hpq]
      exact mem_eraseFirst _ _ _ hx
    exact hB.pqd x hx'
  · intro v u hvu
    obtain ⟨hu, hvs, w', hw', du, dv, hdu, hdv, heq⟩ := hB.pvcons v u hvu
    exact ⟨List.mem_append_left _ hu, hvs, w', hw', du, dv, hdu, hdv, heq⟩
  · intro v u hvu hvvis
    obtain ⟨hu, _, _⟩ := hB.pvcons v u hvu
    rcases List.mem_append.mp hvvis with hv | hv
    · rw [posIn_append_left _ hu, posIn_append_left _ hv]
      exact hB.pvidx v u hvu hv
    · have hve : v = (findMin e0 rest).2 := by simpa using hv
      subst hve
      rw [posIn_append_left _ hu, posIn_append_self hvis]
      exact posIn_lt_length hu
  · intro v dv hvs hdv
    exact hB.psome v dv hvs hdv

theorem dijkLoop_main {g : Graph} {start e : Nat} (hW : WNonneg g) (hN : NbrsKeyed g start) :
    ∀ (fuel : Nat) (st : DijkState), DBase g start st → Relaxed g st →
      mRem g st + 1 ≤ fuel →
      ∃ st', dijkLoop g (some e) fuel st = (st', none) ∧ DBase g start st' ∧
        (e ∈ st'.visited ∨ (st'.pq = [] ∧ Relaxed g st')) := by
  intro fuel
  induction fuel with
  | zero => intro st _ _ hf; omega
  | succ fuel ih =>
    intro st hB hR hf
    have hstep : dijkLoop g (some e) (fuel + 1) st =
        (match st.pq with
         | [] => (st, none)
         | e0 :: rest =>
           let m := findMin e0 rest
           let pq' := eraseFirst (e0 :: rest) m
           if m.2 ∈ st.visited then dijkLoop g (some e) fuel { st with pq := pq' }
           else
             let st1 := { st with pq := pq', visited := st.visited ++ [m.2] }
             if some e = some m.2 then (st1, none)
             else
               match relaxAll m.2 m.1 { st1 with processed := st1.processed ++ [m.2] }
                   (adjGet g.adj m.2) with
               | Sum.inl st2 => (st2, some DError.keyError)
               | Sum.inr st2 => dijkLoop g (some e) fuel st2) := rfl
    rw [hstep]
    split
    · rename_i hpq
      exact ⟨st, rfl, hB, Or.inr ⟨hpq, hR⟩⟩
    · rename_i e0 rest hpq
      have hmmem : findMin e0 rest ∈ st.pq := by rw [hpq]; exact findMin_mem rest e0
      have hpqlen : (eraseFirst (e0 :: rest) (findMin e0 rest)).length + 1 = st.pq.length := by
        rw [hpq]
        exact eraseFirst_length _ _ (findMin_mem rest e0)
      by_cases hvis : (findMin e0 rest).2 ∈ st.visited
      · rw [if_pos hvis]
        have hBk : DBase g start { st with pq := eraseFirst (e0 :: rest) (findMin e0 rest) } := by
          refine ⟨hB.keys, hB.dstart, hB.realized, hB.vopt, ?_, ?_, hB.pvcons, hB.pvidx,
            hB.psome⟩
          · intro v dv hv hdv
            have hv2 : v ≠ (findMin e0 rest).2 := fun he => hv (he ▸ hvis)
            have hmem := hB.dom v dv hv hdv
            rw [hpq] at hmem
            exact mem_eraseFirst_of_ne _ _ _ hmem (fun he => hv2 (by rw [← he]))
          · intro x hx
            have hx' : x ∈ st.pq := by
              rw [hpq]
              exact mem_eraseFirst _ _ _ hx
            exact hB.pqd x hx'
        have hRk : Relaxed g { st with pq := eraseFirst (e0 :: rest) (findMin e0 rest) } := hR
        have hfk : mRem g { st with pq := eraseFirst (e0 :: rest) (findMin e0 rest) } + 1 ≤
            fuel := by
          unfold mRem at hf ⊢
          simp only at hf ⊢
          omega
        exact ih _ hBk hRk hfk
      · rw [if_neg hvis]
        obtain ⟨hmd, hmopt⟩ := dijk_pop hW hB hR hpq hvis
        by_cases hend : some e = some (findMin e0 rest).2
        · rw [if_pos hend]
          have hee : e = (findMin e0 rest).2 := Option.some.inj hend
          refine ⟨_, rfl, dijk_visit_base hW hB hR hpq hvis st.processed, Or.inl ?_⟩
          show e ∈ st.visited ++ [(findMin e0 rest).2]
          exact List.mem_append_right _ (by simp [hee])
        · rw [if_neg hend]
          have hB2 := dijk_visit_base hW hB hR hpq hvis (st.processed ++ [(findMin e0 rest).2])
          have hcvis2 : (findMin e0 rest).2 ∈ st.visited ++ [(findMin e0 rest).2] :=
            List.mem_append_right _ (List.mem_cons_self _ _)
          have hpartial2 : ∀ u ∈ st.visited ++ [(findMin e0 rest).2],
              u ≠ (findMin e0 rest).2 → ∀ du, mapLookup st.distances u = some (some du) →
              ∀ nw ∈ adjGet g.adj u, ∃ dn, mapLookup st.distances nw.1 = some (some dn) ∧
                dn ≤ du + nw.2 := by
            intro u hu hune du hdu nw hnw
            rcases List.mem_append.mp hu with hu | hu
            · exact hR u hu du hdu nw hnw
            · exact absurd (by simpa using hu) hune
          obtain ⟨st3, heq3, hvis3, hproc3, hlen3, hDB3, hRel3, hstable3⟩ :=
            relaxAll_main (findMin e0 rest).2 (findMin e0 rest).1 hW hN
              (adjGet g.adj (findMin e0 rest).2) [] { st with
                pq := eraseFirst (e0 :: rest) (findMin e0 rest),
                visited := st.visited ++ [(findMin e0 rest).2],
                processed := st.processed ++ [(findMin e0 rest).2] }
              (List.nil_append _).symm hB2 hcvis2 hmd hpartial2 (by intro nw hnw; simp at hnw)
          rw [heq3]
          have hmkey : (findMin e0 rest).2 ∈ st.distances.map Prod.fst := by
            obtain ⟨d, hd, _⟩ := hB.pqd _ hmmem
            exact isSome_mem_keys (by rw [hd]; rfl)
          have hvisit := @unvisitedWeight_visit g (st.distances.map Prod.fst)
            st.visited (findMin e0 rest).2 hmkey hvis
          have hkeq3 : st3.distances.map Prod.fst = st.distances.map Prod.fst := by
            rw [hDB3.keys, hB.keys]
          have hf3 : mRem g st3 + 1 ≤ fuel := by
            unfold mRem
            rw [hkeq3, hvis3]
            unfold mRem at hf
            rw [hpq] at hf
            unfold keyWeight at hvisit
            have hlen3' : st3.pq.length ≤
                (eraseFirst (e0 :: rest) (findMin e0 rest)).length +
                  (adjGet g.adj (findMin e0 rest).2).length := hlen3
            rw [hpq] at hpqlen
            show st3.pq.length + unvisitedWeight g (st.distances.map Prod.fst)
              (st.visited ++ [(findMin e0 rest).2]) + 1 ≤ fuel
            simp only [List.length_cons] at hf hpqlen
            omega
          exact ih st3 hDB3 hRel3 hf3

theorem dijk_closed {g : Graph} {start : Nat} {st : DijkState}
    (hB : DBase g start st) (hR : Relaxed g st) (hpq : st.pq = []) :
    ∀ {a v : Nat} {p : List Nat} {w : Int}, IsPathW g a v p w → a ∈ st.visited →
      v ∈ st.visited := by
  intro a v p w hp
  induction hp with
  | single x => intro h; exact h
  | cons u n v' w' p' W' hmem hsub ih =>
    intro hu
    obtain ⟨du, hdu, _⟩ := hB.vopt u hu
    obtain ⟨dn, hdn, _⟩ := hR u hu du hdu (n, w') hmem
    have hn : n ∈ st.visited := by
      by_contra hnv
      have hmem2 := hB.dom n dn hnv hdn
      rw [hpq] at hmem2
      simp at hmem2
    exact ih hn

theorem walkPrev_main {g : Graph} {start : Nat} {st : DijkState} (hB : DBase g start st) :
    ∀ (k : Nat) (v : Nat), v ∈ st.visited → posIn st.visited v < k →
      ∀ (dv : Int), mapLookup st.distances v = some (some dv) →
      ∀ (fuel : Nat) (acc : List Nat), k < fuel →
      ∃ c, walkPrev start st.previous fuel v acc = some ((acc ++ c).reverse) ∧
        IsPathW g start v c.reverse dv := by
  intro k
  induction k with
  | zero => intro v _ h; omega
  | succ k ih =>
    intro v hv hposk dv hdv fuel acc hfuel
    obtain ⟨fuel', rfl⟩ : ∃ f', fuel = f' + 1 := ⟨fuel - 1, by omega⟩
    have hwstep : walkPrev start st.previous (fuel' + 1) v acc =
        (match mapLookup st.previous v with
         | some u => walkPrev start st.previous fuel' u (acc ++ [v])
         | none => some ((acc ++ [start]).reverse)) := rfl
    rw [hwstep]
    cases hpv : mapLookup st.previous v with
    | none =>
      have hvs : v = start := by
        by_contra hne
        have hps := hB.psome v dv hne hdv
        rw [hpv] at hps
        simp at hps
      subst hvs
      have hdv0 : dv = 0 := by
        have h1 : (some (some dv) : Option (Option Int)) = some (some 0) :=
          hdv.symm.trans hB.dstart
        have h2 : (some dv : Option Int) = some 0 := Option.some.inj h1
        exact Option.some.inj h2
      subst hdv0
      exact ⟨[v], rfl, IsPathW.single v⟩
    | some u =>
      obtain ⟨hu, hvne, w, hw', du, dv', hdu, hdv', heqw⟩ := hB.pvcons v u hpv
      have hdveq : dv = dv' := by
        have h1 : (some (some dv) : Option (Option Int)) = some (some dv') :=
          hdv.symm.trans hdv'
        exact Option.some.inj (Option.some.inj h1)
      have hposu : posIn st.visited u < posIn st.visited v := hB.pvidx v u hpv hv
      have hposu' : posIn st.visited u < k := by omega
      obtain ⟨c, hcres, hcpath⟩ := ih u hu hposu' du hdu fuel' (acc ++ [v]) (by omega)
      refine ⟨v :: c, ?_, ?_⟩
      · show walkPrev start st.previous fuel' u (acc ++ [v]) = some ((acc ++ v :: c).reverse)
        rw [hcres]
        congr 1
        rw [List.append_assoc]
        rfl
      · have hrev : (v :: c).reverse = c.reverse ++ [v] := by simp
        rw [hrev]
        have hsnoc := isPathW_snoc hcpath hw'
        rw [hdveq, heqw]
        exact hsnoc

theorem mapLookup_const_keys {β : Type} (c : β) : ∀ (l : List Nat) (v : Nat) (x : β),
    mapLookup (l.map (fun u => (u, c))) v = some x → x = c := by
  intro l
  induction l with
  | nil => intro v x h; simp [mapLookup] at h
  | cons a l ihl =>
    intro v x h
    by_cases hav : a = v
    · have hred : mapLookup ((a, c) :: l.map (fun u => (u, c))) v = some c := by
        show (if a = v then some c else mapLookup (l.map (fun u => (u, c))) v) = some c
        rw [if_pos hav]
      rw [show (a :: l).map (fun u => (u, c)) = (a, c) :: l.map (fun u => (u, c)) from rfl,
        hred] at h
      exact (Option.some.inj h).symm
    · have hred : mapLookup ((a, c) :: l.map (fun u => (u, c))) v =
          mapLookup (l.map (fun u => (u, c))) v := by
        show (if a = v then some c else mapLookup (l.map (fun u => (u, c))) v) = _
        rw [if_neg hav]
      rw [show (a :: l).map (fun u => (u, c)) = (a, c) :: l.map (fun u => (u, c)) from rfl,
        hred] at h
      exact ihl v x h

theorem dijkFuel_ok (g : Graph) (start : Nat) :
    mRem g (dijkInit g start) + 1 ≤ dijkFuel g start := by
  unfold mRem dijkFuel unvisitedWeight
  have hfe : (((dijkInit g start).distances.map Prod.fst).filter
      (fun k => decide (k ∉ (dijkInit g start).visited))) =
      (dijkInit g start).distances.map Prod.fst := by
    apply List.filter_eq_self.mpr
    intro a ha
    simp [dijkInit]
  show (1 : Nat) + _ + 1 ≤ 2 + _
  rw [hfe]
  have hms : (((dijkInit g start).distances.map Prod.fst).map (keyWeight g)).sum =
      ((dijkInit g start).distances.map (fun p => 1 + (adjGet g.adj p.1).length)).sum := by
    rw [List.map_map]
    rfl
  omega

theorem dist0_lookup_ne {g : Graph} {start v : Nat} (h : v ≠ start) :
    mapLookup (dijkInit g start).distances v =
      mapLookup (g.vertices.map (fun u => (u, (none : Option Int)))) v := by
  show mapLookup (mapSet (g.vertices.map (fun u => (u, (none : Option Int)))) start
    (some 0)) v = _
  exact mapLookup_mapSet_ne (fun he => h he.symm)

theorem dist0_finite_start {g : Graph} {start v : Nat} {dv : Int}
    (h : mapLookup (dijkInit g start).distances v = some (some dv)) : v = start ∧ dv = 0 := by
  by_cases hv : v = start
  · subst hv
    have h0 : mapLookup (dijkInit g v).distances v = some (some 0) := by
      show mapLookup (mapSet (g.vertices.map (fun u => (u, (none : Option Int)))) v
        (some 0)) v = some (some 0)
      rw [mapLookup_mapSet_self]
    rw [h0] at h
    have h1 : (some (0 : Int) : Option Int) = some dv := Option.some.inj h
    exact ⟨rfl, (Option.some.inj h1).symm⟩
  · rw [dist0_lookup_ne hv] at h
    have := mapLookup_const_keys (none : Option Int) g.vertices v (some dv) h
    simp at this

theorem dijkInit_base (g : Graph) (start : Nat) : DBase g start (dijkInit g start) := by
  refine ⟨rfl, ?_, ?_, ?_, ?_, ?_, ?_, ?_, ?_⟩
  · show mapLookup (mapSet (g.vertices.map (fun u => (u, (none : Option Int)))) start
      (some 0)) start = some (some 0)
    rw [mapLookup_mapSet_self]
  · intro v dv hdv
    obtain ⟨rfl, rfl⟩ := dist0_finite_start hdv
    exact ⟨[v], IsPathW.single v⟩
  · intro u hu
    simp [dijkInit] at hu
  · intro v dv _ hdv
    obtain ⟨rfl, rfl⟩ := dist0_finite_start hdv
    show ((0 : Int), v) ∈ [((0 : Int), v)]
    simp
  · intro x hx
    have hxe : x = ((0 : Int), start) := by simpa [dijkInit] using hx
    subst hxe
    refine ⟨0, ?_, le_refl _⟩
    show mapLookup (mapSet (g.vertices.map (fun u => (u, (none : Option Int)))) start
      (some 0)) start = some (some 0)
    rw [mapLookup_mapSet_self]
  · intro v u hvu
    simp [dijkInit, mapLookup] at hvu
  · intro v u hvu
    simp [dijkInit, mapLookup] at hvu
  · intro v dv hne hdv
    obtain ⟨rfl, _⟩ := dist0_finite_start hdv
    exact absurd rfl hne

theorem dijkInit_relaxed (g : Graph) (start : Nat) : Relaxed g (dijkInit g start) := by
  intro u hu
  simp [dijkInit] at hu

/-- Claim C3 (amended): for every Graph whose adjacency-list weights are all
non-negative, whose adjacency neighbors all lie in `vertices`, and for every
supplied `end` that is a known vertex or equal to `start`, `dijkstra(start, end)`
returns a pair: when `end` is reachable it returns a path from `start` to `end`
together with its total weight, which is minimal over all `start`-to-`end`
paths; when `end` is unreachable it returns the `(None, inf)` sentinel pair. -/
theorem claim_C3_amended (g : Graph) (start e : Nat)
    (hW : WNonneg g) (hA : AdjNbrsIn g.adj g.vertices)
    (hE : e ∈ g.vertices ∨ e = start) :
    ((∃ p w, IsPathW g start e p w) →
      ∃ p w, dijkstra g start (some e) = Sum.inr (DijkOut.pathDist (some p) (some w)) ∧
        IsPathW g start e p w ∧ ∀ q w', IsPathW g start e q w' → w ≤ w') ∧
    ((∀ p w, ¬ IsPathW g start e p w) →
      dijkstra g start (some e) = Sum.inr (DijkOut.pathDist none none)) := by
  have hN : NbrsKeyed g start := fun v nw hnw =>
    mem_dist0_keys (Or.inl (adjGet_nbr_mem hA hnw))
  obtain ⟨st', heq, hDB, hcase⟩ := dijkLoop_main hW hN (dijkFuel g start) (dijkInit g start)
    (dijkInit_base g start) (dijkInit_relaxed g start) (dijkFuel_ok g start)
  have hekey : e ∈ st'.distances.map Prod.fst := by
    rw [hDB.keys]
    exact mem_dist0_keys hE
  cases hle : mapLookup st'.distances e with
  | none =>
    have hs := mem_keys_isSome hekey
    rw [hle] at hs
    simp at hs
  | some X =>
    cases X with
    | none =>
      constructor
      · rintro ⟨p, w, hp⟩
        exfalso
        have hev : e ∈ st'.visited := by
          rcases hcase with hev | ⟨hpq, hRf⟩
          · exact hev
          · have hsv : start ∈ st'.visited := by
              by_contra hns
              have hmem := hDB.dom start 0 hns hDB.dstart
              rw [hpq] at hmem
              simp at hmem
            exact dijk_closed hDB hRf hpq hp hsv
        obtain ⟨du, hdu, _⟩ := hDB.vopt e hev
        rw [hle] at hdu
        simp at hdu
      · intro _
        unfold dijkstra dijkstraRun
        rw [heq]
        simp [hle]
    | some de =>
      have hev : e ∈ st'.visited := by
        rcases hcase with hev | ⟨hpq, _⟩
        · exact hev
        · by_contra hns
          have hmem := hDB.dom e de hns hle
          rw [hpq] at hmem
          simp at hmem
      obtain ⟨du, hdu, hopt⟩ := hDB.vopt e hev
      obtain ⟨c, hcres, hcpath⟩ := walkPrev_main hDB st'.visited.length e hev
        (posIn_lt_length hev) du hdu (st'.visited.length + 1) [] (by omega)
      have hres : dijkstra g start (some e) =
          Sum.inr (DijkOut.pathDist (some c.reverse) (some du)) := by
        unfold dijkstra dijkstraRun
        rw [heq]
        simp [hdu, hcres]
      constructor
      · intro _
        exact ⟨c.reverse, du, hres, hcpath, fun q w' hq => hopt q w' hq⟩
      · intro hnp
        exact absurd hcpath (hnp _ _)

/-- Claim C3 counterexample: a graph with only non-negative weights and a
supplied (truthy, unknown) `end` on which `dijkstra` raises a `KeyError`
instead of returning any pair — in particular not the `(None, inf)` sentinel
pair the claim promises for an unreachable `end`. -/
theorem claim_C3_counterexample :
    WNonneg (execOps false [Op.addVertex 0, Op.addVertex 1, Op.addEdge 0 1 2]) ∧
    dijkstra (execOps false [Op.addVertex 0, Op.addVertex 1, Op.addEdge 0 1 2]) 0 (some 9) =
      Sum.inl DError.keyError ∧
    ∀ p d, (Sum.inl DError.keyError : Sum DError DijkOut) ≠
      Sum.inr (DijkOut.pathDist p d) := by
  refine ⟨?_, by decide, ?_⟩
  · unfold WNonneg
    decide
  · intro p d h
    exact Sum.noConfusion h

theorem claim_C3_witness :
    (WNonneg (execOps false [Op.addVertex 0, Op.addVertex 1, Op.addEdge 0 1 3]) ∧
      AdjNbrsIn (execOps false [Op.addVertex 0, Op.addVertex 1, Op.addEdge 0 1 3]).adj
        (execOps false [Op.addVertex 0, Op.addVertex 1, Op.addEdge 0 1 3]).vertices ∧
      (1 ∈ (execOps false [Op.addVertex 0, Op.addVertex 1, Op.addEdge 0 1 3]).vertices ∨
        (1 : Nat) = 0)) ∧
    ∃ p w, dijkstra (execOps false [Op.addVertex 0, Op.addVertex 1, Op.addEdge 0 1 3])
        0 (some 1) = Sum.inr (DijkOut.pathDist (some p) (some w)) ∧
      IsPathW (execOps false [Op.addVertex 0, Op.addVertex 1, Op.addEdge 0 1 3]) 0 1 p w ∧
      ∀ q w', IsPathW (execOps false [Op.addVertex 0, Op.addVertex 1, Op.addEdge 0 1 3])
        0 1 q w' → w ≤ w' :=
  ⟨⟨by unfold WNonneg; decide, by unfold AdjNbrsIn; decide, by decide⟩,
    (claim_C3_amended (execOps false [Op.addVertex 0, Op.addVertex 1, Op.addEdge 0 1 3])
      0 1 (by unfold WNonneg; decide) (by unfold AdjNbrsIn; decide) (by decide)).1
      ⟨[0, 1], 3 + 0, IsPathW.cons 0 1 1 3 [1] 0 (by decide) (IsPathW.single 1)⟩⟩
